import Mathlib

/-!
Verification of the merkletree range/diff proof engine.

This file gives a shallow embedding of the Go sources (`range.go`, `diff.go`,
`stack.go`, `merkletree-blake/tree.go`) and proves properties about it.
Digests are kept abstract: every definition is parameterized by a digest type
`D` and by the node/leaf hash functions, mirroring Go's `hash.Hash` parameter.
Go's bounded loops are rendered as structural recursion on an explicit fuel
argument whose initial value is the loop's iteration bound, so that all
definitions compute.
-/

namespace Merkletree

/-! ### Bit-level helpers (models of Go's `math/bits` intrinsics) -/

/-- Fuel-based count of trailing zero bits; meaningful for `n ≠ 0` with
`fuel ≥ n`. -/
def tzf : Nat → Nat → Nat
  | 0, _ => 0
  | fuel + 1, n => if n % 2 = 1 then 0 else 1 + tzf fuel (n / 2)

/-- Model of Go `bits.TrailingZeros64`: 64 on input 0, otherwise the number of
trailing zero bits (the two agree for nonzero inputs below `2^64`). -/
def tz64 (n : Nat) : Nat := if n = 0 then 64 else tzf n n

/-- Fuel-based bit length; meaningful with `fuel ≥ n`. -/
def lenf : Nat → Nat → Nat
  | 0, _ => 0
  | fuel + 1, n => if n = 0 then 0 else 1 + lenf fuel (n / 2)

/-- Model of Go `bits.Len64`: the number of bits required to represent `n`
(0 for `n = 0`). -/
def len64 (n : Nat) : Nat := lenf n n

theorem tzf_spec : ∀ fuel n, n ≠ 0 → n ≤ fuel →
    2 ^ tzf fuel n ∣ n ∧ n / 2 ^ tzf fuel n % 2 = 1 := by
  intro fuel
  induction fuel with
  | zero => intro n hn hle; omega
  | succ fuel ih =>
    intro n hn hle
    by_cases hodd : n % 2 = 1
    · unfold tzf
      rw [if_pos hodd]
      simpa using hodd
    · have h2 : n % 2 = 0 := by omega
      have hn2 : n / 2 ≠ 0 := by omega
      have hle2 : n / 2 ≤ fuel := by omega
      obtain ⟨hdvd, hoddq⟩ := ih (n / 2) hn2 hle2
      refine ⟨?_, ?_⟩
      · simp only [tzf, hodd, if_false]
        set t := tzf fuel (n / 2) with ht
        obtain ⟨c, hc⟩ := hdvd
        refine ⟨c, ?_⟩
        calc n = 2 * (n / 2) := by omega
          _ = 2 * (2 ^ t * c) := by rw [hc]
          _ = 2 ^ (1 + t) * c := by rw [pow_add, pow_one]; ring
      · simp only [tzf, hodd, if_false]
        set t := tzf fuel (n / 2) with ht
        have hdd : n / 2 ^ (1 + t) = n / 2 / 2 ^ t := by
          rw [pow_add, pow_one, ← Nat.div_div_eq_div_mul]
        rw [hdd]
        exact hoddq

theorem tz64_spec (n : Nat) (hn : n ≠ 0) :
    2 ^ tz64 n ∣ n ∧ n / 2 ^ tz64 n % 2 = 1 := by
  unfold tz64
  simp only [hn, if_false]
  exact tzf_spec n n hn le_rfl

theorem tz64_dvd (n : Nat) (hn : n ≠ 0) : 2 ^ tz64 n ∣ n := (tz64_spec n hn).1

/-- Any power of two dividing `n ≠ 0` has exponent at most `tz64 n`. -/
theorem le_tz64_of_pow_dvd {n k : Nat} (hn : n ≠ 0) (h : 2 ^ k ∣ n) :
    k ≤ tz64 n := by
  by_contra hlt
  push_neg at hlt
  obtain ⟨hdvd, hodd⟩ := tz64_spec n hn
  set T := tz64 n with hT
  have h1 : 2 ^ (T + 1) ∣ n := dvd_trans (pow_dvd_pow 2 (by omega)) h
  obtain ⟨c, hc⟩ := h1
  have h3 : n / 2 ^ T = 2 * c := by
    rw [hc, pow_succ, Nat.mul_assoc]
    exact Nat.mul_div_cancel_left _ (by positivity)
  omega

theorem lenf_zero : ∀ fuel, lenf fuel 0 = 0
  | 0 => rfl
  | _ + 1 => rfl

theorem lenf_spec : ∀ fuel n, n ≤ fuel →
    n < 2 ^ lenf fuel n ∧ (n ≠ 0 → 2 ^ (lenf fuel n - 1) ≤ n) := by
  intro fuel
  induction fuel with
  | zero => intro n hle; interval_cases n; simp [lenf]
  | succ fuel ih =>
    intro n hle
    by_cases hn : n = 0
    · simp [lenf, hn]
    · have hle2 : n / 2 ≤ fuel := by omega
      obtain ⟨hub, hlb⟩ := ih (n / 2) hle2
      simp only [lenf, hn, if_false]
      constructor
      · rw [pow_add, pow_one]
        omega
      · intro _
        by_cases hm : n / 2 = 0
        · have hL0 : lenf fuel (n / 2) = 0 := by rw [hm]; exact lenf_zero fuel
          rw [hL0]
          simpa using by omega
        · have hL1 : 1 ≤ lenf fuel (n / 2) := by
            by_contra hc
            have h0 : lenf fuel (n / 2) = 0 := by omega
            rw [h0] at hub; omega
          have := hlb hm
          have h2 : 2 ^ (1 + lenf fuel (n / 2) - 1) = 2 * 2 ^ (lenf fuel (n / 2) - 1) := by
            rw [← pow_succ']
            congr 1
            omega
          omega

theorem len64_lt (n : Nat) : n < 2 ^ len64 n := (lenf_spec n n le_rfl).1

theorem len64_le (n : Nat) (hn : n ≠ 0) : 2 ^ (len64 n - 1) ≤ n :=
  (lenf_spec n n le_rfl).2 hn

theorem len64_pos (n : Nat) (hn : n ≠ 0) : 1 ≤ len64 n := by
  by_contra hc
  have h0 : len64 n = 0 := by omega
  have := len64_lt n
  rw [h0] at this
  omega

/-! ### `nextSubtreeSize` (range.go, lines 20-27) -/

/-- `nextSubtreeSize start end` returns the size of the subtree adjacent to
`start` that does not overlap `end`:
`ideal := TrailingZeros64(start); max := Len64(end-start) - 1;`
returning `1 << max` if `ideal > max` and `1 << ideal` otherwise. -/
def nextSubtreeSize (start e : Nat) : Nat :=
  let ideal := tz64 start
  let mx := len64 (e - start) - 1
  if ideal > mx then 2 ^ mx else 2 ^ ideal


/-- **C2**: For `0 ≤ start < end` (with `end` a `uint64` value),
`nextSubtreeSize start end` is the unique largest power of two `p` such that
`start mod p = 0` and `start + p ≤ end`; for `start = 0` every power of two
divides `start`, so the result is the largest power of two `≤ end`. -/
theorem nextSubtreeSize_isGreatest (start e : Nat) (h1 : start < e) (h2 : e < 2 ^ 64) :
    IsGreatest {p | (∃ k, p = 2 ^ k) ∧ start % p = 0 ∧ start + p ≤ e}
      (nextSubtreeSize start e) := by
  have hd : e - start ≠ 0 := by omega
  have hmxub : e - start < 2 ^ (len64 (e - start) - 1 + 1) := by
    have := len64_lt (e - start)
    have h1' := len64_pos (e - start) hd
    have : len64 (e - start) - 1 + 1 = len64 (e - start) := by omega
    rw [this]
    exact len64_lt (e - start)
  have hmxlb : 2 ^ (len64 (e - start) - 1) ≤ e - start := len64_le _ hd
  by_cases hz : start = 0
  · subst hz
    have hideal : tz64 0 = 64 := by simp [tz64]
    have hmxle : len64 e - 1 ≤ 63 := by
      by_contra hc
      push_neg at hc
      have : 2 ^ 64 ≤ 2 ^ (len64 e - 1) := Nat.pow_le_pow_right (by omega) (by omega)
      simp only [Nat.sub_zero] at hmxlb
      omega
    have hbranch : nextSubtreeSize 0 e = 2 ^ (len64 e - 1) := by
      unfold nextSubtreeSize
      simp only [Nat.sub_zero, hideal]
      rw [if_pos (by omega)]
    rw [hbranch]
    constructor
    · refine ⟨⟨_, rfl⟩, Nat.zero_mod _, ?_⟩
      simp only [Nat.sub_zero] at hmxlb
      omega
    · rintro q ⟨⟨k, rfl⟩, -, hle⟩
      simp only [Nat.sub_zero] at hmxub
      have : 2 ^ k < 2 ^ (len64 e - 1 + 1) := by omega
      have hk : k ≤ len64 e - 1 := by
        by_contra hc
        have : 2 ^ (len64 e - 1 + 1) ≤ 2 ^ k := Nat.pow_le_pow_right (by omega) (by omega)
        omega
      exact Nat.pow_le_pow_right (by omega) hk
  · have hdvd := tz64_dvd start hz
    by_cases hbig : tz64 start > len64 (e - start) - 1
    · have hbranch : nextSubtreeSize start e = 2 ^ (len64 (e - start) - 1) := by
        unfold nextSubtreeSize
        rw [if_pos hbig]
      rw [hbranch]
      constructor
      · refine ⟨⟨_, rfl⟩, ?_, by omega⟩
        exact Nat.mod_eq_zero_of_dvd (dvd_trans (pow_dvd_pow 2 (by omega)) hdvd)
      · rintro q ⟨⟨k, rfl⟩, -, hle⟩
        have : 2 ^ k < 2 ^ (len64 (e - start) - 1 + 1) := by omega
        have hk : k ≤ len64 (e - start) - 1 := by
          by_contra hc
          have : 2 ^ (len64 (e - start) - 1 + 1) ≤ 2 ^ k :=
            Nat.pow_le_pow_right (by omega) (by omega)
          omega
        exact Nat.pow_le_pow_right (by omega) hk
    · have hbranch : nextSubtreeSize start e = 2 ^ tz64 start := by
        unfold nextSubtreeSize
        rw [if_neg hbig]
      rw [hbranch]
      push_neg at hbig
      constructor
      · refine ⟨⟨_, rfl⟩, Nat.mod_eq_zero_of_dvd hdvd, ?_⟩
        have : 2 ^ tz64 start ≤ 2 ^ (len64 (e - start) - 1) :=
          Nat.pow_le_pow_right (by omega) hbig
        omega
      · rintro q ⟨⟨k, rfl⟩, hmod, -⟩
        have hkdvd : 2 ^ k ∣ start := Nat.dvd_of_mod_eq_zero hmod
        exact Nat.pow_le_pow_right (by omega) (le_tz64_of_pow_dvd hz hkdvd)


/-! ### Proof-order conversion (range.go, lines 429-519) -/

/-- Number of set bits of `n` among bit positions below `k`. -/
def onesBelow (n k : Nat) : Nat := ((List.range k).filter (fun j => n.testBit j)).length

/-- Model of Go `bits.OnesCount(uint(i))` for a non-negative `int` argument:
all set bits of such a value lie below position 64. -/
def onesCount64 (n : Nat) : Nat := onesBelow n 64

theorem onesBelow_succ (n i : Nat) :
    onesBelow n (i + 1) = onesBelow n i + (if n.testBit i then 1 else 0) := by
  unfold onesBelow
  rw [List.range_succ, List.filter_append, List.length_append]
  by_cases h : n.testBit i <;> simp [h]

theorem testBit_false_of_len64_le {n j : Nat} (h : len64 n ≤ j) : n.testBit j = false :=
  Nat.testBit_lt_two_pow (lt_of_lt_of_le (len64_lt n) (Nat.pow_le_pow_right (by omega) h))

theorem lt_len64_of_testBit {n j : Nat} (h : n.testBit j = true) : j < len64 n := by
  by_contra hc
  rw [testBit_false_of_len64_le (by omega)] at h
  cases h

theorem onesBelow_of_len64_le {n a b : Nat} (ha : len64 n ≤ a) (hb : a ≤ b) :
    onesBelow n b = onesBelow n a := by
  induction b, hb using Nat.le_induction with
  | base => rfl
  | succ b hab ih =>
    rw [onesBelow_succ, ih, testBit_false_of_len64_le (by omega)]
    simp

theorem len64_le_of_lt_pow {n k : Nat} (h : n < 2 ^ k) : len64 n ≤ k := by
  by_contra hc
  push_neg at hc
  have hn : n ≠ 0 := by
    intro h0
    rw [h0] at hc
    have : len64 0 = 0 := rfl
    omega
  have h1 := len64_le n hn
  have h2 : 2 ^ k ≤ 2 ^ (len64 n - 1) := Nat.pow_le_pow_right (by omega) (by omega)
  omega

/-- The classification loop of `proofMapping` (range.go, lines 479-491): a set
bit `i` of the target index sends the next slot to the left-side list, a clear
bit to the right-side list while fewer than `numRights` right slots are taken.
Appending `len(left)+len(right)` makes the combined value sequence `0,1,2,…`. -/
def proofMappingLoop (proofSize idx : Nat) (numRights : Int) :
    Nat → Nat → List Nat → List Nat → List Nat × List Nat
  | 0, _, left, right => (left, right)
  | fuel + 1, i, left, right =>
    if left.length + right.length < proofSize then
      if idx.testBit i then
        proofMappingLoop proofSize idx numRights fuel (i + 1)
          (left ++ [left.length + right.length]) right
      else if (right.length : Int) < numRights then
        proofMappingLoop proofSize idx numRights fuel (i + 1)
          left (right ++ [left.length + right.length])
      else
        proofMappingLoop proofSize idx numRights fuel (i + 1) left right
    else (left, right)

/-- `proofMapping` (range.go, lines 432-497): position map from range order to
legacy order, `new[i] = old[m[i]]`; the left-side slots are emitted in reverse
followed by the right-side slots.  The Go `for` loop runs until `proofSize`
slots are classified; `proofSize + len64 idx + 1` bounds its iteration count
and serves as structural-recursion fuel. -/
def proofMapping (proofSize idx : Nat) : List Nat :=
  let numRights : Int := (proofSize : Int) - (onesCount64 idx : Int)
  let lr := proofMappingLoop proofSize idx numRights (proofSize + len64 idx + 1) 0 [] []
  lr.1.reverse ++ lr.2

/-- Writing a list of (position, value) pairs into a base list, in order: the
shape of the Go conversion loops, which allocate `make([][]byte, n)` (all slots
zero) and then assign slots one by one. -/
def writePairs {D : Type} (base : List D) (pairs : List (Nat × D)) : List D :=
  pairs.foldl (fun acc p => acc.set p.1 p.2) base

/-- `ConvertSingleProofToRangeProof` (range.go, lines 501-508):
`newproof[i] = proof[mapping[i]]`.  `d0` models Go's zero value for an
unwritten slot, and `getD` models the read `proof[j]` (in-bounds for every
reachable `j`; see C8). -/
def convertSingleProofToRangeProof {D : Type} (d0 : D) (proof : List D)
    (proofIndex : Nat) : List D :=
  let mapping := proofMapping proof.length proofIndex
  writePairs (List.replicate proof.length d0)
    (mapping.enum.map (fun p => (p.1, proof.getD p.2 d0)))

/-- `ConvertRangeProofToSingleProof` (range.go, lines 512-519):
`oldproof[mapping[i]] = proof[i]`. -/
def convertRangeProofToSingleProof {D : Type} (d0 : D) (proof : List D)
    (proofIndex : Nat) : List D :=
  let mapping := proofMapping proof.length proofIndex
  writePairs (List.replicate proof.length d0) (mapping.zip proof)

theorem proofMappingLoop_spec (L idx : Nat) (hidx : idx < 2 ^ 63) :
    ∀ fuel i left right,
      (left ++ right).Perm (List.range (left.length + right.length)) →
      left.length = onesBelow idx i →
      left.length + right.length ≤ L →
      i ≤ len64 idx + right.length →
      L + len64 idx + right.length ≤ fuel + i + (left.length + right.length) →
      (((proofMappingLoop L idx ((L : Int) - (onesCount64 idx : Int))
            fuel i left right).1.reverse ++
          (proofMappingLoop L idx ((L : Int) - (onesCount64 idx : Int))
            fuel i left right).2).Perm (List.range L) ∧
        (proofMappingLoop L idx ((L : Int) - (onesCount64 idx : Int))
            fuel i left right).1.length +
          (proofMappingLoop L idx ((L : Int) - (onesCount64 idx : Int))
            fuel i left right).2.length = L) := by
  have hfin : ∀ left right : List Nat,
      (left ++ right).Perm (List.range (left.length + right.length)) →
      left.length + right.length = L →
      ((left.reverse ++ right).Perm (List.range L) ∧
        left.length + right.length = L) := by
    intro left right hperm htot
    refine ⟨?_, htot⟩
    have h1 : (left.reverse ++ right).Perm (left ++ right) :=
      List.Perm.append (List.reverse_perm left) (List.Perm.refl right)
    rw [← htot]
    exact h1.trans hperm
  intro fuel
  induction fuel with
  | zero =>
    intro i left right hperm hleft htot hi hfuel
    have htoteq : left.length + right.length = L := by omega
    simpa [proofMappingLoop] using hfin left right hperm htoteq
  | succ fuel ih =>
    intro i left right hperm hleft htot hi hfuel
    by_cases hguard : left.length + right.length < L
    · rw [proofMappingLoop, if_pos hguard]
      by_cases hbit : idx.testBit i
      · -- left-side slot
        rw [if_pos hbit]
        have hlt : i < len64 idx := lt_len64_of_testBit hbit
        refine ih (i + 1) (left ++ [left.length + right.length]) right ?_ ?_ ?_ ?_ ?_
        · have h1 : ((left ++ [left.length + right.length]) ++ right).Perm
              ((left ++ right) ++ [left.length + right.length]) := by
            rw [List.append_assoc, List.append_assoc]
            exact List.Perm.append_left left List.perm_append_comm
          have h2 : (List.range (left.length + right.length + 1)) =
              List.range (left.length + right.length) ++ [left.length + right.length] :=
            List.range_succ _
          have h3 := (h1.trans (hperm.append (List.Perm.refl _))).trans
            (List.Perm.of_eq h2.symm)
          simpa [Nat.add_right_comm] using h3
        · rw [onesBelow_succ, hbit]
          simp only [List.length_append, List.length_cons, List.length_nil, if_true]
          omega
        · simp only [List.length_append, List.length_cons, List.length_nil]
          omega
        · omega
        · simp only [List.length_append, List.length_cons, List.length_nil]
          omega
      · rw [if_neg hbit]
        have hbitf : idx.testBit i = false := by simpa using hbit
        by_cases hquota : ((right.length : Int) < (L : Int) - (onesCount64 idx : Int))
        · -- right-side slot
          rw [if_pos hquota]
          refine ih (i + 1) left (right ++ [left.length + right.length]) ?_ ?_ ?_ ?_ ?_
          · have h1 : (left ++ (right ++ [left.length + right.length])).Perm
                ((left ++ right) ++ [left.length + right.length]) :=
              List.Perm.of_eq (List.append_assoc left right _).symm
            have h2 : (List.range (left.length + right.length + 1)) =
                List.range (left.length + right.length) ++ [left.length + right.length] :=
              List.range_succ _
            have h3 := (h1.trans (hperm.append (List.Perm.refl _))).trans
              (List.Perm.of_eq h2.symm)
            simpa [Nat.add_assoc] using h3
          · rw [onesBelow_succ, hbitf]
            simpa using hleft
          · simp only [List.length_append, List.length_cons, List.length_nil]
            omega
          · simp only [List.length_append, List.length_cons, List.length_nil]
            omega
          · simp only [List.length_append, List.length_cons, List.length_nil]
            omega
        · -- skipped slot: only possible below the bit length of idx
          rw [if_neg hquota]
          have hlt : i < len64 idx := by
            by_contra hge
            push_neg at hge
            have h64 : len64 idx ≤ 64 :=
              len64_le_of_lt_pow (lt_trans hidx (by norm_num))
            have hob : onesBelow idx i = onesCount64 idx := by
              unfold onesCount64
              rw [onesBelow_of_len64_le le_rfl (le_trans hge (by omega)),
                onesBelow_of_len64_le le_rfl h64]
            rw [hob] at hleft
            omega
          refine ih (i + 1) left right hperm ?_ htot ?_ ?_
          · rw [onesBelow_succ, hbitf]
            simpa using hleft
          · omega
          · omega
    · rw [proofMappingLoop, if_neg hguard]
      have htoteq : left.length + right.length = L := by omega
      exact hfin left right hperm htoteq

/-- The mapping is a permutation of the positions `0 .. proofSize-1`, for every
proof size and every target index representable as a non-negative `int`. -/
theorem proofMapping_perm (L idx : Nat) (hidx : idx < 2 ^ 63) :
    (proofMapping L idx).Perm (List.range L) := by
  have h := proofMappingLoop_spec L idx hidx (L + len64 idx + 1) 0 [] []
    (by simp) (by simp [onesBelow]) (by simp) (by simp) (by simp)
  exact h.1

theorem proofMapping_length (L idx : Nat) (hidx : idx < 2 ^ 63) :
    (proofMapping L idx).length = L := by
  have h := (proofMapping_perm L idx hidx).length_eq
  simpa using h

theorem proofMapping_mem_lt (L idx : Nat) (hidx : idx < 2 ^ 63) :
    ∀ j ∈ proofMapping L idx, j < L := by
  intro j hj
  have := (proofMapping_perm L idx hidx).mem_iff.mp hj
  exact List.mem_range.mp this

theorem proofMapping_nodup (L idx : Nat) (hidx : idx < 2 ^ 63) :
    (proofMapping L idx).Nodup :=
  ((proofMapping_perm L idx hidx).nodup_iff).mpr (List.nodup_range L)


theorem writePairs_length {D : Type} (pairs : List (Nat × D)) :
    ∀ base : List D, (writePairs base pairs).length = base.length := by
  induction pairs with
  | nil => intro base; rfl
  | cons p ps ih =>
    intro base
    show (writePairs (base.set p.1 p.2) ps).length = base.length
    rw [ih, List.length_set]

theorem writePairs_getElem?_of_not_mem {D : Type} (pairs : List (Nat × D)) :
    ∀ (base : List D) (k : Nat), (∀ p ∈ pairs, p.1 ≠ k) →
      (writePairs base pairs)[k]? = base[k]? := by
  induction pairs with
  | nil => intro base k _; rfl
  | cons p ps ih =>
    intro base k h
    show (writePairs (base.set p.1 p.2) ps)[k]? = base[k]?
    rw [ih _ k (fun q hq => h q (List.mem_cons_of_mem p hq)),
      List.getElem?_set_ne (h p (List.mem_cons_self p ps))]

theorem writePairs_getElem?_of_mem {D : Type} (pairs : List (Nat × D)) :
    ∀ (base : List D) (j : Nat) (v : D), (pairs.map Prod.fst).Nodup →
      (j, v) ∈ pairs → j < base.length →
      (writePairs base pairs)[j]? = some v := by
  induction pairs with
  | nil => intro _ _ _ _ hmem _; cases hmem
  | cons p ps ih =>
    intro base j v hnd hmem hlt
    rw [List.map_cons] at hnd
    have hnd' := List.nodup_cons.mp hnd
    rcases List.mem_cons.mp hmem with heq | htail
    · show (writePairs (base.set p.1 p.2) ps)[j]? = some v
      have hpj : p.1 = j := by rw [← heq]
      have hkey : ∀ q ∈ ps, q.1 ≠ j := by
        intro q hq hqj
        apply hnd'.1
        rw [hpj, ← hqj]
        exact List.mem_map_of_mem Prod.fst hq
      rw [writePairs_getElem?_of_not_mem ps _ j hkey, ← heq]
      exact List.getElem?_set_eq_of_lt v hlt
    · exact ih (base.set p.1 p.2) j v hnd'.2 htail (by rw [List.length_set]; exact hlt)

theorem convertSingle_getElem? {D : Type} (d0 : D) (pf : List D) (idx n j : Nat)
    (hidx : idx < 2 ^ 63) (hn : n < pf.length)
    (hj : (proofMapping pf.length idx)[n]? = some j) :
    (convertSingleProofToRangeProof d0 pf idx)[n]? = some (pf.getD j d0) := by
  unfold convertSingleProofToRangeProof
  set m := proofMapping pf.length idx with hm
  have hmlen : m.length = pf.length := proofMapping_length _ _ hidx
  have hkeys : ((m.enum.map (fun p => (p.1, pf.getD p.2 d0))).map Prod.fst).Nodup := by
    rw [List.map_map]
    have : (Prod.fst ∘ fun p : Nat × Nat => (p.1, pf.getD p.2 d0)) = Prod.fst := by
      funext p; rfl
    rw [this, List.enum_map_fst]
    exact List.nodup_range _
  have hnm : n < m.length := by omega
  have hjget : m[n] = j := by
    have := List.getElem?_eq_getElem hnm
    rw [hj] at this
    exact (Option.some.inj this).symm
  have hmem : (n, pf.getD j d0) ∈ m.enum.map (fun p => (p.1, pf.getD p.2 d0)) := by
    refine List.mem_map.mpr ⟨(n, m[n]), ?_, by rw [hjget]⟩
    rw [List.mem_enum_iff_getElem?]
    exact List.getElem?_eq_getElem hnm
  exact writePairs_getElem?_of_mem _ _ n _ hkeys hmem (by simpa using hn)

theorem convertRange_getElem? {D : Type} (d0 : D) (pf : List D) (idx i j : Nat)
    (hidx : idx < 2 ^ 63) (hi : i < pf.length)
    (hj : (proofMapping pf.length idx)[i]? = some j) :
    (convertRangeProofToSingleProof d0 pf idx)[j]? = some (pf.getD i d0) := by
  unfold convertRangeProofToSingleProof
  set m := proofMapping pf.length idx with hm
  have hmlen : m.length = pf.length := proofMapping_length _ _ hidx
  have hnodup : m.Nodup := proofMapping_nodup _ _ hidx
  have him : i < m.length := by omega
  have hjget : m[i] = j := by
    have := List.getElem?_eq_getElem him
    rw [hj] at this
    exact (Option.some.inj this).symm
  have hkeys : ((m.zip pf).map Prod.fst).Nodup := by
    rw [List.map_fst_zip m pf (by omega)]
    exact hnodup
  have hzlen : i < (m.zip pf).length := by
    rw [List.length_zip]
    omega
  have hmem : (j, pf.getD i d0) ∈ m.zip pf := by
    have h1 : (m.zip pf)[i] = (m[i], pf[i]) := List.getElem_zip
    have h2 : pf.getD i d0 = pf[i] := by
      simp [List.getD_eq_getElem?_getD, List.getElem?_eq_getElem hi]
    rw [h2, ← hjget, ← h1]
    exact List.getElem_mem hzlen
  have hjlt : j < pf.length := by
    rw [← hjget]
    exact proofMapping_mem_lt _ _ hidx _ (List.getElem_mem him)
  exact writePairs_getElem?_of_mem _ _ j _ hkeys hmem (by simpa using hjlt)

/-- **C8**: for every proof length (however malformed) and every target index
representable as a non-negative `int`, the converter's `proofMapping` is a
permutation of the positions `0 .. proofSize-1`: every produced index is in
bounds, the mapping covers each slot exactly once, and both conversion
directions yield an output of the same length as the input, so neither
direction ever reads or writes out of range. -/
theorem proofMapping_is_safe_permutation (L idx : Nat) (hidx : idx < 2 ^ 63) :
    (proofMapping L idx).Perm (List.range L) ∧
    (∀ j ∈ proofMapping L idx, j < L) ∧
    (proofMapping L idx).length = L ∧
    (∀ (D : Type) (d0 : D) (proof : List D), proof.length = L →
      (convertSingleProofToRangeProof d0 proof idx).length = L ∧
      (convertRangeProofToSingleProof d0 proof idx).length = L) := by
  refine ⟨proofMapping_perm L idx hidx, proofMapping_mem_lt L idx hidx,
    proofMapping_length L idx hidx, ?_⟩
  intro D d0 proof hlen
  constructor
  · unfold convertSingleProofToRangeProof
    rw [writePairs_length, List.length_replicate, hlen]
  · unfold convertRangeProofToSingleProof
    rw [writePairs_length, List.length_replicate, hlen]

/-- **C8 witness**. -/
theorem proofMapping_is_safe_permutation_witness :
    (5 : Nat) < 2 ^ 63 ∧
      ((proofMapping 3 5).Perm (List.range 3) ∧
        (∀ j ∈ proofMapping 3 5, j < 3) ∧
        (proofMapping 3 5).length = 3 ∧
        (∀ (D : Type) (d0 : D) (proof : List D), proof.length = 3 →
          (convertSingleProofToRangeProof d0 proof 5).length = 3 ∧
          (convertRangeProofToSingleProof d0 proof 5).length = 3)) :=
  ⟨by decide, proofMapping_is_safe_permutation 3 5 (by decide)⟩

/-- **C7**: converting a legacy single-leaf proof to range order and back (and
vice versa) recovers the original proof list exactly, for every proof list and
every leaf index representable as a non-negative `int` — in particular for
every index in trees of non-power-of-two size. -/
theorem convert_proof_roundtrip {D : Type} (d0 : D) (proof : List D) (idx : Nat)
    (hidx : idx < 2 ^ 63) :
    convertRangeProofToSingleProof d0 (convertSingleProofToRangeProof d0 proof idx) idx
        = proof ∧
    convertSingleProofToRangeProof d0 (convertRangeProofToSingleProof d0 proof idx) idx
        = proof := by
  set L := proof.length with hL
  set m := proofMapping L idx with hm
  have hmlen : m.length = L := proofMapping_length _ _ hidx
  constructor
  · set q := convertSingleProofToRangeProof d0 proof idx with hq
    have hqlen : q.length = L := by
      rw [hq]
      unfold convertSingleProofToRangeProof
      rw [writePairs_length, List.length_replicate]
    apply List.ext_getElem?
    intro n
    by_cases hn : n < L
    · have hmem : n ∈ m := (proofMapping_perm L idx hidx).mem_iff.mpr (List.mem_range.mpr hn)
      obtain ⟨i, hi, hmi⟩ := List.getElem_of_mem hmem
      have hjq : q[i]? = some (proof.getD n d0) := by
        rw [hq]
        have : (proofMapping proof.length idx)[i]? = some n := by
          rw [← hL, ← hm, List.getElem?_eq_getElem hi, hmi]
        exact convertSingle_getElem? d0 proof idx i n hidx (by omega) this
      have hconv : (convertRangeProofToSingleProof d0 q idx)[n]? = some (q.getD i d0) := by
        have hmq : (proofMapping q.length idx)[i]? = some n := by
          rw [hqlen, ← hm, List.getElem?_eq_getElem hi, hmi]
        exact convertRange_getElem? d0 q idx i n hidx (by omega) hmq
      rw [hconv]
      have hqi : q.getD i d0 = proof.getD n d0 := by
        simp [List.getD_eq_getElem?_getD, hjq]
      rw [hqi]
      have : proof.getD n d0 = proof[n] := by
        simp [List.getD_eq_getElem?_getD, List.getElem?_eq_getElem hn]
      rw [this, List.getElem?_eq_getElem hn]
    · have h1 : (convertRangeProofToSingleProof d0 q idx).length = L := by
        unfold convertRangeProofToSingleProof
        rw [writePairs_length, List.length_replicate, hqlen]
      rw [List.getElem?_eq_none (by omega), List.getElem?_eq_none (by omega)]
  · set q := convertRangeProofToSingleProof d0 proof idx with hq
    have hqlen : q.length = L := by
      rw [hq]
      unfold convertRangeProofToSingleProof
      rw [writePairs_length, List.length_replicate]
    apply List.ext_getElem?
    intro n
    by_cases hn : n < L
    · have hnm : n < m.length := by omega
      set j := m[n] with hj
      have hjlt : j < L := proofMapping_mem_lt _ _ hidx _ (List.getElem_mem hnm)
      have hqj : q[j]? = some (proof.getD n d0) := by
        rw [hq]
        have : (proofMapping proof.length idx)[n]? = some j := by
          rw [← hL, ← hm, List.getElem?_eq_getElem hnm]
        exact convertRange_getElem? d0 proof idx n j hidx (by omega) this
      have hconv : (convertSingleProofToRangeProof d0 q idx)[n]? = some (q.getD j d0) := by
        have hmq : (proofMapping q.length idx)[n]? = some j := by
          rw [hqlen, ← hm, List.getElem?_eq_getElem hnm]
        exact convertSingle_getElem? d0 q idx n j hidx (by omega) hmq
      rw [hconv]
      have hqi : q.getD j d0 = proof.getD n d0 := by
        simp [List.getD_eq_getElem?_getD, hqj]
      rw [hqi]
      have : proof.getD n d0 = proof[n] := by
        simp [List.getD_eq_getElem?_getD, List.getElem?_eq_getElem hn]
      rw [this, List.getElem?_eq_getElem hn]
    · have h1 : (convertSingleProofToRangeProof d0 q idx).length = L := by
        unfold convertSingleProofToRangeProof
        rw [writePairs_length, List.length_replicate, hqlen]
      rw [List.getElem?_eq_none (by omega), List.getElem?_eq_none (by omega)]

/-- **C7 witness** (proof of length 4, index 5, like a leaf of an 11-leaf tree). -/
theorem convert_proof_roundtrip_witness :
    (5 : Nat) < 2 ^ 63 ∧
      (convertRangeProofToSingleProof 0 (convertSingleProofToRangeProof 0 [10, 20, 30, 40] 5) 5
          = [10, 20, 30, 40] ∧
        convertSingleProofToRangeProof 0 (convertRangeProofToSingleProof (0 : Nat) [10, 20, 30, 40] 5) 5
          = [10, 20, 30, 40]) :=
  ⟨by decide, convert_proof_roundtrip 0 [10, 20, 30, 40] 5 (by decide)⟩


/-! ### The Tree accumulator (merkletree-blake/tree.go)

The Go repository instantiates the same accumulator twice (a generic
`hash.Hash` version and the BLAKE2b version under `merkletree-blake/`); the
embedding is parameterized by the digest type `D` and by the node/leaf hash
functions, covering both.  Go's slice `t.stack` keeps the oldest (tallest)
subtree at index 0 and appends at the end; the embedding stores the same
sequence reversed, head = most recent (Go's `t.stack[len(t.stack)-1]`). -/

/-- A `subTree` (tree.go, lines 45-48): the root of a complete subtree of
`2^height` leaves. -/
structure SubTree (D : Type) where
  height : Nat
  sum : D
deriving DecidableEq, Repr

/-- The Tree accumulator state (tree.go, lines 15-41).  The Go `cachedTree`
flag and retained raw `proofBase` bytes play no role in any verified property
and are omitted. -/
structure Tree (D : Type) where
  stack : List (SubTree D)
  currentIndex : Nat
  proofIndex : Nat
  proofSet : List D
  proofTree : Bool
deriving DecidableEq, Repr

/-- `New` (tree.go, lines 87-92). -/
def Tree.new (D : Type) : Tree D := ⟨[], 0, 0, [], false⟩

/-- The two `PushSubTree` error conditions. -/
inductive TreeErr
  /-- "the cached tree shouldn't contain the element to prove" -/
  | straddle
  /-- "can't add a subtree that is larger than the smallest subtree" -/
  | tooLarge
deriving DecidableEq, Repr

/-- The merge loop of `joinAllSubTrees` (tree.go, lines 267-314), recursing on
the stack beneath the newest subtree `a`: while the next (older) subtree `b`
has the same height, optionally record a proof hash — when the merged height is
one above the proof set, the subtree not containing the proof index, decided
against the midpoint `(currentIndex/leaves)*leaves` — and join the two with the
older subtree as left child.  Returns the new stack and proof set. -/
def joinAllAux {D : Type} (hN : D → D → D) (currentIndex proofIndex : Nat) :
    SubTree D → List (SubTree D) → List D → List (SubTree D) × List D
  | a, [], ps => ([a], ps)
  | a, b :: rest, ps =>
    if a.height = b.height then
      let ps' :=
        if a.height + 1 = ps.length then
          let leaves := 2 ^ a.height
          let mid := currentIndex / leaves * leaves
          if proofIndex < mid then ps ++ [a.sum] else ps ++ [b.sum]
        else ps
      joinAllAux hN currentIndex proofIndex ⟨a.height + 1, hN b.sum a.sum⟩ rest ps'
    else (a :: b :: rest, ps)

/-- The stack shape produced by the merge loop, without the proof-set
bookkeeping (which never affects the stack — `joinAllAux_stack` below). -/
def joinStackP {D : Type} (hN : D → D → D) : SubTree D → List (SubTree D) → List (SubTree D)
  | a, [] => [a]
  | a, b :: rest =>
    if a.height = b.height then joinStackP hN ⟨a.height + 1, hN b.sum a.sum⟩ rest
    else a :: b :: rest

theorem joinAllAux_stack {D : Type} (hN : D → D → D) (ci pi : Nat) :
    ∀ (rest : List (SubTree D)) (a : SubTree D) (ps : List D),
      (joinAllAux hN ci pi a rest ps).1 = joinStackP hN a rest := by
  intro rest
  induction rest with
  | nil => intro a ps; rfl
  | cons b rest ih =>
    intro a ps
    by_cases h : a.height = b.height
    · simp only [joinAllAux, joinStackP, if_pos h]
      exact ih _ _
    · simp only [joinAllAux, joinStackP, if_neg h]

/-- `Push` (tree.go, lines 168-193): record the leaf hash in the proof set when
at the proof index (Go does this whenever `currentIndex == proofIndex`, even
with capture disabled), insert the leaf hash at height 0, merge, and advance
the cursor by one. -/
def Tree.push {LD D : Type} (hL : LD → D) (hN : D → D → D) (t : Tree D) (data : LD) : Tree D :=
  let ps := if t.currentIndex = t.proofIndex then t.proofSet ++ [hL data] else t.proofSet
  let sp := joinAllAux hN t.currentIndex t.proofIndex ⟨0, hL data⟩ t.stack ps
  { stack := sp.1, currentIndex := t.currentIndex + 1, proofIndex := t.proofIndex,
    proofSet := sp.2, proofTree := t.proofTree }

/-- Go's ordering check `len(t.stack) != 0 && height > t.stack[len-1].height`. -/
def stackTooSmall {D : Type} (stack : List (SubTree D)) (height : Nat) : Bool :=
  match stack with
  | s :: _ => height > s.height
  | [] => false

/-- `PushSubTree` (tree.go, lines 201-234): with proof capture on, a height-0
push exactly at the proof index records the digest, while any other push whose
interval `[currentIndex, currentIndex + 2^height)` contains the proof index is
rejected; a pushed height above the smallest pending subtree is rejected; on
success the subtree is inserted, merged, and the cursor advances by
`2^height`. -/
def Tree.pushSubTree {D : Type} (hN : D → D → D) (t : Tree D) (height : Nat) (sum : D) :
    Except TreeErr (Tree D) :=
  let newIndex := t.currentIndex + 2 ^ height
  let cap : Except TreeErr (List D) :=
    if t.proofTree then
      if t.currentIndex = t.proofIndex ∧ height = 0 then .ok (t.proofSet ++ [sum])
      else if t.currentIndex ≤ t.proofIndex ∧ t.proofIndex < newIndex then .error .straddle
      else .ok t.proofSet
    else .ok t.proofSet
  match cap with
  | .error e => .error e
  | .ok ps =>
    if stackTooSmall t.stack height then .error .tooLarge
    else
      let sp := joinAllAux hN t.currentIndex t.proofIndex ⟨height, sum⟩ t.stack ps
      .ok { stack := sp.1, currentIndex := newIndex, proofIndex := t.proofIndex,
            proofSet := sp.2, proofTree := t.proofTree }

/-- `SetIndex` (tree.go, lines 255-262). -/
def Tree.setIndex {D : Type} (t : Tree D) (i : Nat) : Except String (Tree D) :=
  if t.stack.isEmpty then .ok { t with proofTree := true, proofIndex := i }
  else .error "cannot call SetIndex on Tree if Tree has not been reset"

/-- The `Root` loop (tree.go, lines 237-251), combining subtrees newest-to-
oldest with the older subtree as the left child of each join. -/
def rootFold {D : Type} (hN : D → D → D) : D → List (SubTree D) → D
  | acc, [] => acc
  | acc, b :: rest => rootFold hN (hN b.sum acc) rest

/-- Root of a subtree stack; `none` models the nil/zero root of an empty
accumulator. -/
def stackRoot {D : Type} (hN : D → D → D) : List (SubTree D) → Option D
  | [] => none
  | a :: rest => some (rootFold hN a.sum rest)

/-- `Root` (tree.go, lines 237-251). -/
def Tree.root {D : Type} (hN : D → D → D) (t : Tree D) : Option D := stackRoot hN t.stack

/-! #### Stack-shape algebra -/

/-- Total number of leaves summarized by a subtree stack. -/
def stCount {D : Type} : List (SubTree D) → Nat
  | [] => 0
  | a :: rest => 2 ^ a.height + stCount rest

/-- Strictly increasing heights from the head (= newest entry); equivalently,
strictly decreasing from the oldest entry to the most recent. -/
def stSorted {D : Type} (st : List (SubTree D)) : Prop :=
  List.Pairwise (fun a b => a.height < b.height) st

instance {D : Type} (st : List (SubTree D)) : Decidable (stSorted st) := by
  unfold stSorted
  infer_instance

/-- The count over entries all of height `≥ h` is a multiple of `2^h`. -/
theorem stCount_dvd_of_all_ge {D : Type} {h : Nat} :
    ∀ {st : List (SubTree D)}, (∀ e ∈ st, h ≤ e.height) → 2 ^ h ∣ stCount st := by
  intro st
  induction st with
  | nil => intro _; simp [stCount]
  | cons a rest ih =>
    intro hall
    have h1 : 2 ^ h ∣ 2 ^ a.height := pow_dvd_pow 2 (hall a (by simp))
    have h2 := ih (fun e he => hall e (List.mem_cons_of_mem a he))
    exact Dvd.dvd.add h1 h2

/-- In a sorted stack the head height is the 2-adic valuation of the count:
any power of two dividing the count is at most `2^head.height`. -/
theorem le_head_of_pow_dvd_stCount {D : Type} {a : SubTree D} {rest : List (SubTree D)}
    (hs : stSorted (a :: rest)) {k : Nat} (hdvd : 2 ^ k ∣ stCount (a :: rest)) :
    k ≤ a.height := by
  by_contra hk
  push_neg at hk
  have hall : ∀ e ∈ rest, a.height + 1 ≤ e.height := by
    intro e he
    exact (List.pairwise_cons.mp hs).1 e he
  have hm : 2 ^ (a.height + 1) ∣ stCount rest := stCount_dvd_of_all_ge hall
  have htot : 2 ^ (a.height + 1) ∣ stCount (a :: rest) :=
    dvd_trans (pow_dvd_pow 2 hk) hdvd
  have hhead : (2 : Nat) ^ (a.height + 1) ∣ 2 ^ a.height := by
    have h1 : stCount (a :: rest) = 2 ^ a.height + stCount rest := rfl
    have h2 : 2 ^ (a.height + 1) ∣ stCount (a :: rest) - stCount rest := by
      exact Nat.dvd_sub' htot hm
    have h3 : stCount (a :: rest) - stCount rest = 2 ^ a.height := by
      rw [h1]; omega
    rwa [h3] at h2
  have := Nat.le_of_dvd (by positivity) hhead
  have h4 : (2 : Nat) ^ a.height < 2 ^ (a.height + 1) :=
    Nat.pow_lt_pow_right (by omega) (by omega)
  omega

/-- Alignment precondition for a merge: the incoming height is at most the
height of the newest pending subtree (vacuous on an empty stack). -/
def alignedTo {D : Type} (a : SubTree D) : List (SubTree D) → Prop
  | [] => True
  | b :: _ => a.height ≤ b.height

theorem joinStackP_sorted_count {D : Type} (hN : D → D → D) :
    ∀ (st : List (SubTree D)) (a : SubTree D), stSorted st → alignedTo a st →
      stSorted (joinStackP hN a st) ∧
        stCount (joinStackP hN a st) = 2 ^ a.height + stCount st := by
  intro st
  induction st with
  | nil =>
    intro a _ _
    refine ⟨List.pairwise_singleton _ _, ?_⟩
    simp [joinStackP, stCount]
  | cons b rest ih =>
    intro a hs ha
    have hrest : stSorted rest := (List.pairwise_cons.mp hs).2
    have hball : ∀ e ∈ rest, b.height < e.height := (List.pairwise_cons.mp hs).1
    by_cases h : a.height = b.height
    · have halign : alignedTo (⟨a.height + 1, hN b.sum a.sum⟩ : SubTree D) rest := by
        cases rest with
        | nil => trivial
        | cons c rest' =>
          show a.height + 1 ≤ c.height
          have := hball c (by simp)
          omega
      obtain ⟨hsort, hcount⟩ := ih ⟨a.height + 1, hN b.sum a.sum⟩ hrest halign
      rw [joinStackP, if_pos h]
      refine ⟨hsort, ?_⟩
      rw [hcount]
      show _ = 2 ^ a.height + (2 ^ b.height + stCount rest)
      rw [← h, pow_succ]
      ring
    · have hlt : a.height < b.height := by
        have : a.height ≤ b.height := ha
        omega
      rw [joinStackP, if_neg h]
      refine ⟨?_, rfl⟩
      unfold stSorted
      rw [List.pairwise_cons]
      constructor
      · intro e he
        rcases List.mem_cons.mp he with rfl | he'
        · exact hlt
        · exact lt_trans hlt (hball e he')
      · exact hs


theorem stackTooSmall_iff {D : Type} (st : List (SubTree D)) (h : Nat) :
    stackTooSmall st h = true ↔ ∃ s rest, st = s :: rest ∧ s.height < h := by
  cases st with
  | nil => simp [stackTooSmall]
  | cons s rest =>
    simp only [stackTooSmall, gt_iff_lt, decide_eq_true_eq]
    constructor
    · intro hlt
      exact ⟨s, rest, rfl, hlt⟩
    · rintro ⟨s', rest', heq, hlt⟩
      injection heq with h1 h2
      rw [h1]
      exact hlt

/-- **C4**: `PushSubTree(height, digest)` fails with an invalid-subtree error
iff (a) the accumulator is non-empty and `height` exceeds the height of the
currently smallest pending subtree, or (b) audit-path capture is enabled and
the interval `[currentIndex, currentIndex + 2^height)` contains the tracked
index, other than the allowed height-0 push exactly at it; on success the
subtree is inserted and merged upward and the cursor advances by `2^height`. -/
theorem pushSubTree_error_iff {D : Type} (hN : D → D → D) (t : Tree D)
    (height : Nat) (sum : D) :
    ((∃ e, Tree.pushSubTree hN t height sum = .error e) ↔
      ((∃ s rest, t.stack = s :: rest ∧ s.height < height) ∨
        (t.proofTree = true ∧ t.currentIndex ≤ t.proofIndex ∧
          t.proofIndex < t.currentIndex + 2 ^ height ∧
          ¬(t.currentIndex = t.proofIndex ∧ height = 0)))) ∧
    (∀ t', Tree.pushSubTree hN t height sum = .ok t' →
      t'.stack = joinStackP hN ⟨height, sum⟩ t.stack ∧
      t'.currentIndex = t.currentIndex + 2 ^ height ∧
      t'.proofTree = t.proofTree ∧ t'.proofIndex = t.proofIndex) := by
  have hstack := joinAllAux_stack hN t.currentIndex t.proofIndex t.stack
    ⟨height, sum⟩
  have main : ∀ PS : List D,
      (Tree.pushSubTree hN t height sum =
        (if stackTooSmall t.stack height = true then .error .tooLarge
         else .ok { stack := (joinAllAux hN t.currentIndex t.proofIndex
                      ⟨height, sum⟩ t.stack PS).1,
                    currentIndex := t.currentIndex + 2 ^ height,
                    proofIndex := t.proofIndex,
                    proofSet := (joinAllAux hN t.currentIndex t.proofIndex
                      ⟨height, sum⟩ t.stack PS).2,
                    proofTree := t.proofTree })) →
      ¬(t.proofTree = true ∧ t.currentIndex ≤ t.proofIndex ∧
          t.proofIndex < t.currentIndex + 2 ^ height ∧
          ¬(t.currentIndex = t.proofIndex ∧ height = 0)) →
      ((∃ e, Tree.pushSubTree hN t height sum = .error e) ↔
        ((∃ s rest, t.stack = s :: rest ∧ s.height < height) ∨
          (t.proofTree = true ∧ t.currentIndex ≤ t.proofIndex ∧
            t.proofIndex < t.currentIndex + 2 ^ height ∧
            ¬(t.currentIndex = t.proofIndex ∧ height = 0)))) ∧
      (∀ t', Tree.pushSubTree hN t height sum = .ok t' →
        t'.stack = joinStackP hN ⟨height, sum⟩ t.stack ∧
        t'.currentIndex = t.currentIndex + 2 ^ height ∧
        t'.proofTree = t.proofTree ∧ t'.proofIndex = t.proofIndex) := by
    intro PS heval hnB
    by_cases hts : stackTooSmall t.stack height = true
    · rw [heval, if_pos hts]
      refine ⟨?_, ?_⟩
      · simp only [Except.error.injEq, exists_eq']
        constructor
        · intro _
          exact Or.inl ((stackTooSmall_iff _ _).mp hts)
        · intro _; trivial
      · intro t' ht'; cases ht'
    · rw [heval, if_neg hts]
      refine ⟨?_, ?_⟩
      · constructor
        · rintro ⟨e, he⟩; cases he
        · rintro (hA | hB)
          · exact absurd ((stackTooSmall_iff _ _).mpr hA) hts
          · exact absurd hB hnB
      · intro t' ht'
        injection ht' with h1
        rw [← h1]
        exact ⟨hstack _, rfl, rfl, rfl⟩
  by_cases hpt : t.proofTree = true
  · by_cases hc0 : t.currentIndex = t.proofIndex ∧ height = 0
    · refine main (t.proofSet ++ [sum]) ?_ ?_
      · simp only [Tree.pushSubTree]
        rw [if_pos hpt, if_pos hc0]
      · intro hB
        exact hB.2.2.2 hc0
    · by_cases hstrad : t.currentIndex ≤ t.proofIndex ∧
          t.proofIndex < t.currentIndex + 2 ^ height
      · have heval : Tree.pushSubTree hN t height sum = .error .straddle := by
          simp only [Tree.pushSubTree]
          rw [if_pos hpt, if_neg hc0, if_pos hstrad]
        rw [heval]
        refine ⟨?_, ?_⟩
        · simp only [Except.error.injEq, exists_eq']
          constructor
          · intro _
            exact Or.inr ⟨hpt, hstrad.1, hstrad.2, hc0⟩
          · intro _; trivial
        · intro t' ht'; cases ht'
      · refine main t.proofSet ?_ ?_
        · simp only [Tree.pushSubTree]
          rw [if_pos hpt, if_neg hc0, if_neg hstrad]
        · intro hB
          exact hstrad ⟨hB.2.1, hB.2.2.1⟩
  · refine main t.proofSet ?_ ?_
    · simp only [Tree.pushSubTree]
      rw [if_neg hpt]
    · intro hB
      exact hpt hB.1


/-- **C4 witness**: a successful height-0 push onto a one-entry stack. -/
theorem pushSubTree_error_iff_witness :
    (⟨[⟨1, 20⟩], 2, 0, [5, 7], false⟩ : Tree Nat).stack =
        joinStackP (fun a b => a + 2 * b + 1) ⟨0, 7⟩ [⟨0, 5⟩] ∧
      (⟨[⟨1, 20⟩], 2, 0, [5, 7], false⟩ : Tree Nat).currentIndex = 1 + 2 ^ 0 ∧
      (⟨[⟨1, 20⟩], 2, 0, [5, 7], false⟩ : Tree Nat).proofTree =
        (⟨[⟨0, 5⟩], 1, 0, [5], false⟩ : Tree Nat).proofTree ∧
      (⟨[⟨1, 20⟩], 2, 0, [5, 7], false⟩ : Tree Nat).proofIndex =
        (⟨[⟨0, 5⟩], 1, 0, [5], false⟩ : Tree Nat).proofIndex :=
  (pushSubTree_error_iff (fun a b => a + 2 * b + 1)
    (⟨[⟨0, 5⟩], 1, 0, [5], false⟩ : Tree Nat) 0 7).2
    ⟨[⟨1, 20⟩], 2, 0, [5, 7], false⟩ rfl

/-! ### The append-only Stack (stack.go) -/

/-- Stack state (stack.go, lines 22-27): one digest slot per height plus the
`used` bitmask, which doubles as the node count.  Go's lazily grown slice of
slots is modelled as a total function (an unoccupied slot holds garbage in
both). -/
structure Stack (D : Type) where
  slots : Nat → D
  used : Nat

/-- `NewStack` (stack.go, lines 96-101); `d0` is the junk initial slot value. -/
def Stack.new (D : Type) (d0 : D) : Stack D := ⟨fun _ => d0, 0⟩

/-- The merge loop of `appendNodeAtHeight` (stack.go, lines 48-52): starting at
`height`, while the slot is occupied, replace the incoming node by
`nodeHash(slot, node)` and move up.  In Go the mask test `used & (1 << i)`
vanishes for `i ≥ 64`, so the loop makes at most 64 steps; 64 is the fuel. -/
def mergeUp {D : Type} (hN : D → D → D) (used : Nat) (slots : Nat → D) :
    Nat → Nat → D → Nat × D
  | 0, i, node => (i, node)
  | fuel + 1, i, node =>
    if i < 64 ∧ used.testBit i then
      mergeUp hN used slots fuel (i + 1) (hN (slots i) node)
    else (i, node)

/-- `appendNodeAtHeight` (stack.go, lines 44-60); Go panics for
`height ≥ 64`, so the embedding is meaningful for `height < 64`. -/
def Stack.appendNodeAtHeight {D : Type} (hN : D → D → D) (s : Stack D) (node : D)
    (height : Nat) : Stack D :=
  let iv := mergeUp hN s.used s.slots 64 height node
  { slots := fun j => if j = iv.1 then iv.2 else s.slots j,
    used := s.used + 2 ^ height }

/-- `AppendNode` (stack.go, lines 63-65). -/
def Stack.appendNode {D : Type} (hN : D → D → D) (s : Stack D) (node : D) : Stack D :=
  Stack.appendNodeAtHeight hN s node 0

/-- `NumNodes` (stack.go, lines 69-71). -/
def Stack.numNodes {D : Type} (s : Stack D) : Nat := s.used

/-- `Reset` (stack.go, lines 74-76): clears occupancy, keeps the slots. -/
def Stack.reset {D : Type} (s : Stack D) : Stack D := { s with used := 0 }

/-- The `Root` accumulation loop (stack.go, lines 86-90): for `i` from the
first occupied height + 1 up to 63, fold each occupied slot in as the left
operand. -/
def rootUp {D : Type} (hN : D → D → D) (used : Nat) (slots : Nat → D) :
    Nat → Nat → D → D
  | 0, _, acc => acc
  | fuel + 1, i, acc =>
    if i < 64 then
      rootUp hN used slots fuel (i + 1) (if used.testBit i then hN (slots i) acc else acc)
    else acc

/-- `Root` (stack.go, lines 80-93): `none` models the nil sentinel of an empty
stack; otherwise start from the lowest occupied slot and fold upward. -/
def Stack.root {D : Type} (hN : D → D → D) (s : Stack D) : Option D :=
  let i := tz64 s.used
  if i = 64 then none
  else some (rootUp hN s.used s.slots 64 (i + 1) (s.slots i))

/-- Root as the spec sentence describes it: list the occupied heights in
increasing order and fold, each taller subtree the left operand of
`HashChildren` against the accumulated result (second definition for the
refinement comparison in C6). -/
def specStackRoot {D : Type} (hN : D → D → D) (s : Stack D) : Option D :=
  match (List.range 64).filter (fun j => s.used.testBit j) with
  | [] => none
  | i :: rest => some (rest.foldl (fun acc j => hN (s.slots j) acc) (s.slots i))

theorem testBit_false_of_pow_dvd {k n j : Nat} (hdvd : 2 ^ k ∣ n) (hj : j < k) :
    n.testBit j = false := by
  obtain ⟨c, rfl⟩ := hdvd
  rw [Nat.testBit_to_div_mod]
  have h1 : 2 ^ k * c / 2 ^ j = 2 ^ (k - j) * c := by
    have : (2 : Nat) ^ k = 2 ^ j * 2 ^ (k - j) := by
      rw [← pow_add]
      congr 1
      omega
    rw [this, Nat.mul_assoc, Nat.mul_div_cancel_left _ (by positivity)]
  rw [h1]
  have h2 : (2 : Nat) ^ (k - j) * c % 2 = 0 := by
    have : (2 : Nat) ∣ 2 ^ (k - j) * c := by
      exact Dvd.dvd.mul_right (dvd_pow_self 2 (by omega)) c
    omega
  simp [h2]

theorem testBit_tz64 {n : Nat} (hn : n ≠ 0) : n.testBit (tz64 n) = true := by
  have := (tz64_spec n hn).2
  rw [Nat.testBit_to_div_mod]
  simp [this]

theorem tz64_lt_64 {n : Nat} (hn : n ≠ 0) (h64 : n < 2 ^ 64) : tz64 n < 64 := by
  have hdvd := tz64_dvd n hn
  have h1 : 2 ^ tz64 n ≤ n := Nat.le_of_dvd (by omega) hdvd
  by_contra hc
  push_neg at hc
  have : (2 : Nat) ^ 64 ≤ 2 ^ tz64 n := Nat.pow_le_pow_right (by omega) hc
  omega

theorem rootUp_eq_fold {D : Type} (hN : D → D → D) (used : Nat) (slots : Nat → D) :
    ∀ fuel i acc, 64 ≤ fuel + i →
      rootUp hN used slots fuel i acc =
        ((List.range' i (64 - i)).filter (fun j => used.testBit j)).foldl
          (fun acc j => hN (slots j) acc) acc := by
  intro fuel
  induction fuel with
  | zero =>
    intro i acc hge
    have : 64 - i = 0 := by omega
    rw [this]
    rfl
  | succ fuel ih =>
    intro i acc hge
    by_cases hi : i < 64
    · rw [rootUp, if_pos hi]
      have hr : 64 - i = (64 - (i + 1)) + 1 := by omega
      rw [hr, List.range'_succ, ih (i + 1) _ (by omega)]
      by_cases hb : used.testBit i = true
      · simp [List.filter_cons, hb]
      · have hbf : used.testBit i = false := by simpa using hb
        simp [List.filter_cons, hbf]
    · rw [rootUp, if_neg hi]
      have : 64 - i = 0 := by omega
      rw [this]
      rfl

theorem filter_range64_eq_cons_tz {used : Nat} (hn : used ≠ 0) (h64 : used < 2 ^ 64) :
    (List.range 64).filter (fun j => used.testBit j) =
      tz64 used ::
        ((List.range' (tz64 used + 1) (64 - (tz64 used + 1))).filter
          (fun j => used.testBit j)) := by
  have htz := tz64_lt_64 hn h64
  have hsplit : List.range 64 =
      List.range' 0 (tz64 used) ++ List.range' (tz64 used) (64 - tz64 used) := by
    rw [List.range_eq_range']
    have h1 := List.range'_append 0 (tz64 used) (64 - tz64 used) 1
    simp only [Nat.one_mul, Nat.zero_add] at h1
    have h2 : (64 : Nat) = (64 - tz64 used) + tz64 used := by omega
    nth_rewrite 1 [h2]
    rw [← h1]
  rw [hsplit, List.filter_append]
  have hlow : (List.range' 0 (tz64 used)).filter (fun j => used.testBit j) = [] := by
    rw [List.filter_eq_nil_iff]
    intro j hj
    have hjlt : j < tz64 used := by
      have := List.mem_range'_1.mp hj
      omega
    simp [testBit_false_of_pow_dvd (tz64_dvd used hn) hjlt]
  rw [hlow, List.nil_append]
  have hmid : 64 - tz64 used = (64 - (tz64 used + 1)) + 1 := by omega
  have h3 := List.range'_append (tz64 used) 1 (64 - (tz64 used + 1)) 1
  simp only [Nat.mul_one, List.range'_one] at h3
  rw [hmid, ← h3, List.filter_append, List.filter_cons]
  rw [if_pos (by simpa using testBit_tz64 hn)]
  rfl

theorem stackRoot_eq_spec {D : Type} (hN : D → D → D) (s : Stack D)
    (hlt : s.used < 2 ^ 64) : Stack.root hN s = specStackRoot hN s := by
  by_cases hn : s.used = 0
  · unfold Stack.root specStackRoot
    have h1 : tz64 s.used = 64 := by rw [hn]; rfl
    rw [h1, if_pos rfl]
    have h2 : (List.range 64).filter (fun j => s.used.testBit j) = [] := by
      rw [List.filter_eq_nil_iff]
      intro j _
      simp [hn, Nat.zero_testBit]
    rw [h2]
  · have htz := tz64_lt_64 hn hlt
    unfold Stack.root specStackRoot
    rw [if_neg (by omega), filter_range64_eq_cons_tz hn hlt]
    rw [rootUp_eq_fold hN s.used s.slots 64 (tz64 s.used + 1) _ (by omega)]

/-- **C6**: `Stack.Root()` yields the empty-tree sentinel (`none`, not a hash
of anything) exactly when nothing has been appended since the last `Reset`;
otherwise it combines the occupied subtrees from lowest to highest height,
each taller subtree the left operand of `HashChildren` against the accumulated
result (`specStackRoot` renders the spec sentence).  Being a pure function of
the stack it does not modify it, and a Stack fed one leaf hash produces the
same root as a Tree fed the same single leaf. -/
theorem stack_root_spec {D LD : Type} (hN : D → D → D) (s : Stack D)
    (hlt : s.used < 2 ^ 64) :
    (Stack.root hN s = none ↔ s.used = 0) ∧
    Stack.root hN s = specStackRoot hN s ∧
    (∀ (hL : LD → D) (d0 : D) (data : LD),
      Stack.root hN (Stack.appendNode hN (Stack.new D d0) (hL data)) =
        Tree.root hN (Tree.push hL hN (Tree.new D) data)) := by
  refine ⟨?_, stackRoot_eq_spec hN s hlt, ?_⟩
  · unfold Stack.root
    by_cases hn : s.used = 0
    · simp [hn, tz64]
    · have := tz64_lt_64 hn hlt
      rw [if_neg (by omega)]
      simp [hn]
  · intro hL d0 data
    have hm : mergeUp hN 0 (fun _ => d0) 64 0 (hL data) = (0, hL data) := rfl
    have hs : Stack.appendNode hN (Stack.new D d0) (hL data) =
        (⟨fun j => if j = 0 then hL data else d0, 1⟩ : Stack D) := by
      unfold Stack.appendNode Stack.appendNodeAtHeight Stack.new
      simp [hm]
    have hrhs : Tree.root hN (Tree.push hL hN (Tree.new D) data) = some (hL data) := rfl
    rw [hs, hrhs, stackRoot_eq_spec hN _ (by norm_num)]
    have hfilter : (List.range 64).filter (fun j => (1 : Nat).testBit j) = [0] := by decide
    unfold specStackRoot
    simp only [hfilter]
    simp


/-- **C6 witness**. -/
theorem stack_root_spec_witness :
    (⟨fun _ => 9, 5⟩ : Stack Nat).used < 2 ^ 64 ∧
      ((Stack.root (fun a b => a + 2 * b + 1) (⟨fun _ => 9, 5⟩ : Stack Nat) = none ↔
          (⟨fun _ => 9, 5⟩ : Stack Nat).used = 0) ∧
        Stack.root (fun a b => a + 2 * b + 1) (⟨fun _ => 9, 5⟩ : Stack Nat) =
          specStackRoot (fun a b => a + 2 * b + 1) (⟨fun _ => 9, 5⟩ : Stack Nat) ∧
        (∀ (hL : Nat → Nat) (d0 : Nat) (data : Nat),
          Stack.root (fun a b => a + 2 * b + 1)
              (Stack.appendNode (fun a b => a + 2 * b + 1) (Stack.new Nat d0) (hL data)) =
            Tree.root (fun a b => a + 2 * b + 1)
              (Tree.push hL (fun a b => a + 2 * b + 1) (Tree.new Nat) data))) :=
  ⟨by decide, stack_root_spec _ _ (by decide)⟩

/-! ### The accumulator invariant (C5) -/

theorem testBit_two_pow_add_of_dvd {h m : Nat} (hdvd : 2 ^ (h + 1) ∣ m) :
    ∀ k, ((2 ^ h + m).testBit k = true ↔ (k = h ∨ m.testBit k = true)) := by
  intro k
  rcases Nat.lt_trichotomy k h with hlt | heq | hgt
  · rw [Nat.testBit_two_pow_add_gt hlt]
    constructor
    · exact Or.inr
    · rintro (rfl | hb)
      · omega
      · exact hb
  · subst heq
    rw [Nat.testBit_two_pow_add_eq]
    have hmb : m.testBit k = false := by
      obtain ⟨c, rfl⟩ := hdvd
      exact testBit_false_of_pow_dvd ⟨c, rfl⟩ (by omega)
    rw [hmb]
    simp
  · obtain ⟨c, rfl⟩ := hdvd
    have heq : (2 ^ h + 2 ^ (h + 1) * c) / 2 ^ k = 2 ^ (h + 1) * c / 2 ^ k := by
      have hk : k = h + 1 + (k - h - 1) := by omega
      rw [hk]
      have e1 : (2 : Nat) ^ (h + 1 + (k - h - 1)) = 2 ^ (h + 1) * 2 ^ (k - h - 1) := by
        rw [← pow_add]
      rw [e1]
      have e2 : 2 ^ h + 2 ^ (h + 1) * c = 2 ^ h * (1 + 2 * c) := by
        rw [pow_succ]
        ring
      have e3 : (2 : Nat) ^ (h + 1) * c = 2 ^ h * (2 * c) := by
        rw [pow_succ]
        ring
      rw [e2, e3]
      have e4 : (2 : Nat) ^ (h + 1) * 2 ^ (k - h - 1) = 2 ^ h * (2 * 2 ^ (k - h - 1)) := by
        rw [pow_succ]
        ring
      rw [e4, Nat.mul_div_mul_left _ _ (by positivity), Nat.mul_div_mul_left _ _ (by positivity)]
      have e6 : (1 + 2 * c) / 2 = c := by omega
      have e7 : 2 * c / 2 = c := by omega
      rw [← Nat.div_div_eq_div_mul, ← Nat.div_div_eq_div_mul, e6, e7]
    rw [Nat.testBit_to_div_mod, Nat.testBit_to_div_mod, heq]
    constructor
    · intro hb
      exact Or.inr hb
    · rintro (rfl | hb)
      · omega
      · exact hb

/-- In a sorted stack the stored heights are exactly the set bits of the
total count. -/
theorem stSorted_testBit {D : Type} :
    ∀ {st : List (SubTree D)}, stSorted st →
      ∀ k, ((∃ s ∈ st, s.height = k) ↔ (stCount st).testBit k = true) := by
  intro st
  induction st with
  | nil =>
    intro _ k
    simp [stCount, Nat.zero_testBit]
  | cons a rest ih =>
    intro hs k
    have hrest : stSorted rest := (List.pairwise_cons.mp hs).2
    have hball : ∀ e ∈ rest, a.height < e.height := (List.pairwise_cons.mp hs).1
    have hdvd : 2 ^ (a.height + 1) ∣ stCount rest :=
      stCount_dvd_of_all_ge (fun e he => hball e he)
    have hrw : stCount (a :: rest) = 2 ^ a.height + stCount rest := rfl
    rw [hrw, testBit_two_pow_add_of_dvd hdvd k]
    constructor
    · rintro ⟨s, hmem, hh⟩
      rcases List.mem_cons.mp hmem with rfl | hmem'
      · exact Or.inl hh.symm
      · exact Or.inr ((ih hrest k).mp ⟨s, hmem', hh⟩)
    · rintro (rfl | hb)
      · exact ⟨a, by simp⟩
      · obtain ⟨s, hmem, hh⟩ := (ih hrest k).mpr hb
        exact ⟨s, List.mem_cons_of_mem a hmem, hh⟩

/-- The accumulator invariant: heights strictly decreasing from the oldest
entry to the most recent, and the total of `2^height` equal to the number of
leaves consumed. -/
def Tree.wf {D : Type} (t : Tree D) : Prop :=
  stSorted t.stack ∧ stCount t.stack = t.currentIndex

theorem push_stack {LD D : Type} (hL : LD → D) (hN : D → D → D) (t : Tree D) (data : LD) :
    (Tree.push hL hN t data).stack = joinStackP hN ⟨0, hL data⟩ t.stack ∧
      (Tree.push hL hN t data).currentIndex = t.currentIndex + 1 := by
  unfold Tree.push
  exact ⟨joinAllAux_stack hN _ _ _ _ _, rfl⟩

theorem alignedTo_zero {D : Type} (d : D) (st : List (SubTree D)) :
    alignedTo ⟨0, d⟩ st := by
  cases st with
  | nil => trivial
  | cons b rest => exact Nat.zero_le _

/-- **C5**: after every sequence of insertions the accumulator invariant holds:
it is true of the fresh accumulator and preserved by `Tree.Push` and every
successful `Tree.PushSubTree`; under the invariant the stored heights strictly
decrease from oldest to newest (that is `Tree.wf`'s sortedness) and are exactly
the set bits of the running leaf count; and in the Stack, `AppendNode` advances
`used` — simultaneously the occupancy bitmask and the node count, so the
multiset of occupied heights is the binary representation of the count — by
exactly one per node appended. -/
theorem accumulator_invariant {LD D : Type} (hL : LD → D) (hN : D → D → D) :
    (Tree.new D).wf ∧
    (∀ (t : Tree D) (data : LD), t.wf → (Tree.push hL hN t data).wf) ∧
    (∀ (t : Tree D) (h : Nat) (d : D) (t' : Tree D), t.wf →
      Tree.pushSubTree hN t h d = .ok t' → t'.wf) ∧
    (∀ t : Tree D, t.wf →
      ∀ k, ((∃ s ∈ t.stack, s.height = k) ↔ t.currentIndex.testBit k = true)) ∧
    (∀ (s : Stack D) (node : D), (Stack.appendNode hN s node).used = s.used + 1) ∧
    (∀ (d0 : D) (nodes : List D),
      (nodes.foldl (Stack.appendNode hN) (Stack.new D d0)).used = nodes.length) := by
  refine ⟨⟨List.Pairwise.nil, rfl⟩, ?_, ?_, ?_, ?_, ?_⟩
  · intro t data hwf
    obtain ⟨hst, hci⟩ := push_stack hL hN t data
    obtain ⟨hsort, hcount⟩ :=
      joinStackP_sorted_count hN t.stack ⟨0, hL data⟩ hwf.1 (alignedTo_zero _ _)
    refine ⟨by rw [hst]; exact hsort, ?_⟩
    rw [hst, hci, hcount, hwf.2]
    show 2 ^ (0 : Nat) + t.currentIndex = t.currentIndex + 1
    norm_num
    omega
  · intro t h d t' hwf hok
    have hspec := pushSubTree_error_iff hN t h d
    obtain ⟨hst, hci, -, -⟩ := hspec.2 t' hok
    have halign : alignedTo ⟨h, d⟩ t.stack := by
      cases hstk : t.stack with
      | nil => trivial
      | cons b rest =>
        show h ≤ b.height
        by_contra hc
        push_neg at hc
        have : ∃ e, Tree.pushSubTree hN t h d = .error e :=
          hspec.1.mpr (Or.inl ⟨b, rest, hstk, hc⟩)
        obtain ⟨e, he⟩ := this
        rw [hok] at he
        cases he
    obtain ⟨hsort, hcount⟩ := joinStackP_sorted_count hN t.stack ⟨h, d⟩ hwf.1 halign
    refine ⟨by rw [hst]; exact hsort, ?_⟩
    rw [hst, hci, hcount, hwf.2]
    show 2 ^ h + t.currentIndex = t.currentIndex + 2 ^ h
    omega
  · intro t hwf k
    rw [← hwf.2]
    exact stSorted_testBit hwf.1 k
  · intro s node
    rfl
  · intro d0 nodes
    have hgen : ∀ (nodes : List D) (s : Stack D),
        (nodes.foldl (Stack.appendNode hN) s).used = s.used + nodes.length := by
      intro nodes
      induction nodes with
      | nil => intro s; simp
      | cons n rest ih =>
        intro s
        rw [List.foldl_cons, ih]
        have h1 : (Stack.appendNode hN s n).used = s.used + 1 := rfl
        rw [h1, List.length_cons]
        omega
    rw [hgen]
    have h0 : (Stack.new D d0).used = 0 := rfl
    omega

/-- **C5 witness**: pushing a leaf onto a well-formed one-entry tree. -/
theorem accumulator_invariant_witness :
    (⟨[⟨0, 5⟩], 1, 0, [5], false⟩ : Tree Nat).wf ∧
      (Tree.push (fun d => d + 100) (fun a b => a + 2 * b + 1)
        (⟨[⟨0, 5⟩], 1, 0, [5], false⟩ : Tree Nat) 7).wf :=
  ⟨(by constructor <;> decide),
    (accumulator_invariant (fun d => d + 100) (fun a b => a + 2 * b + 1)).2.1
      ⟨[⟨0, 5⟩], 1, 0, [5], false⟩ 7 (by constructor <;> decide)⟩


/-- **C2 witness**. -/
theorem nextSubtreeSize_isGreatest_witness :
    (4 : Nat) < 100 ∧ (100 : Nat) < 2 ^ 64 ∧
      IsGreatest {p | (∃ k, p = 2 ^ k) ∧ 4 % p = 0 ∧ 4 + p ≤ 100} (nextSubtreeSize 4 100) :=
  ⟨by decide, by decide, nextSubtreeSize_isGreatest 4 100 (by decide) (by decide)⟩

/-! ### Data sources and the range/diff-proof walks (range.go, diff.go) -/

/-- Walk/data-source outcomes: `eof` models `io.EOF`, `ueof` models
`io.ErrUnexpectedEOF`, `invalid` models the Go panics on an invalid range set,
and `tree e` wraps a `PushSubTree` error. -/
inductive MErr
  | eof
  | ueof
  | invalid
  | tree (e : TreeErr)
deriving DecidableEq, Repr

/-- The `SubtreeHasher` interface (range.go, lines 44-53) as a dictionary over
an explicit state type: `next s n` returns the root of the next `n` leaves and
the advanced state (`eof` when no leaves remain), `skip s n` skips `n` leaves
(`ueof` when fewer remain). -/
structure SHOps (D σ : Type) where
  next : σ → Nat → Except MErr (D × σ)
  skip : σ → Nat → Except MErr σ

/-- The loop of `CachedSubtreeHasher.NextSubtreeRoot` (range.go, lines
120-126): push leaf hashes into a tree via height-0 `PushSubTree` calls. -/
def pushLeafHashes {D : Type} (hN : D → D → D) (t : Tree D) (hs : List D) :
    Except TreeErr (Tree D) :=
  hs.foldlM (fun t d => Tree.pushSubTree hN t 0 d) t

/-- `CachedSubtreeHasher.NextSubtreeRoot` (range.go, lines 116-128): `eof` on
an empty cache, otherwise build a fresh tree from up to `subtreeSize` leaf
hashes and return its root with the advanced cache.  (For `subtreeSize = 0` Go
returns a nil root; the walks only request power-of-two sizes `≥ 1`, and the
model maps that unreachable nil to an error.) -/
def cachedNext {D : Type} (hN : D → D → D) (hs : List D) (n : Nat) :
    Except MErr (D × List D) :=
  if hs.isEmpty then .error .eof
  else
    match pushLeafHashes hN (Tree.new D) (hs.take n) with
    | .error e => .error (.tree e)
    | .ok t =>
      match Tree.root hN t with
      | some r => .ok (r, hs.drop n)
      | none => .error (.tree .tooLarge)

/-- `CachedSubtreeHasher.Skip` (range.go, lines 131-137). -/
def cachedSkip {D : Type} (hs : List D) (n : Nat) : Except MErr (List D) :=
  if n > hs.length then .error .ueof
  else .ok (hs.drop n)

/-- `CachedSubtreeHasher` as a dictionary; the state is the remaining leaf-hash
list. -/
def cachedOps {D : Type} (hN : D → D → D) : SHOps D (List D) :=
  ⟨fun hs n => cachedNext hN hs n, fun hs n => cachedSkip hs n⟩

/-- `ReaderSubtreeHasher.NextSubtreeRoot` (range.go, lines 64-84), modelled
over the list of leaf records the underlying stream delivers (`hL` hashes one
record): push up to `n` leaves into a fresh tree; a nil root (nothing read) is
`eof`. -/
def readerNext {LD D : Type} (hL : LD → D) (hN : D → D → D) (ls : List LD) (n : Nat) :
    Except MErr (D × List LD) :=
  match Tree.root hN ((ls.take n).foldl (fun t d => Tree.push hL hN t d) (Tree.new D)) with
  | some r => .ok (r, ls.drop n)
  | none => .error .eof

/-- `ReaderSubtreeHasher.Skip` (range.go, lines 87-97) over whole records. -/
def readerSkip {LD : Type} (ls : List LD) (n : Nat) : Except MErr (List LD) :=
  if n ≤ ls.length then .ok (ls.drop n) else .error .ueof

def readerOps {LD D : Type} (hL : LD → D) (hN : D → D → D) : SHOps D (List LD) :=
  ⟨readerNext hL hN, readerSkip⟩

/-- `MixedSubtreeHasher` state (range.go, lines 150-154): cached node hashes
plus the reader-backed source's state. -/
structure MixedState (D σ : Type) where
  cached : List D
  reader : σ

/-- `MixedSubtreeHasher.NextSubtreeRoot` (range.go, lines 179-185): requests of
size at least `leavesPerNode` are served from the cache (consuming
`n / leavesPerNode` node hashes), smaller ones by the reader. -/
def mixedNext {D σ : Type} (hN : D → D → D) (rops : SHOps D σ) (leavesPerNode : Nat)
    (s : MixedState D σ) (n : Nat) : Except MErr (D × MixedState D σ) :=
  if n ≥ leavesPerNode then
    match cachedNext hN s.cached (n / leavesPerNode) with
    | .error e => .error e
    | .ok (r, c') => .ok (r, ⟨c', s.reader⟩)
  else
    match rops.next s.reader n with
    | .error e => .error e
    | .ok (r, rs) => .ok (r, ⟨s.cached, rs⟩)

/-- `MixedSubtreeHasher.Skip` (range.go, lines 171-176). -/
def mixedSkip {D σ : Type} (rops : SHOps D σ) (leavesPerNode : Nat)
    (s : MixedState D σ) (n : Nat) : Except MErr (MixedState D σ) :=
  if n ≥ leavesPerNode then
    match cachedSkip s.cached (n / leavesPerNode) with
    | .error e => .error e
    | .ok c' => .ok ⟨c', s.reader⟩
  else
    match rops.skip s.reader n with
    | .error e => .error e
    | .ok rs => .ok ⟨s.cached, rs⟩

def mixedOps {D σ : Type} (hN : D → D → D) (rops : SHOps D σ) (leavesPerNode : Nat) :
    SHOps D (MixedState D σ) :=
  ⟨mixedNext hN rops leavesPerNode, mixedSkip rops leavesPerNode⟩

/-- A `LeafRange` (range.go, lines 13-16); Go's `End` field is `stop` here. -/
structure LeafRange where
  start : Nat
  stop : Nat
deriving DecidableEq, Repr

/-- The `i > 0` iterations of `validRangeSet` (range.go, lines 30-40). -/
def validFrom (prevEnd : Nat) : List LeafRange → Bool
  | [] => true
  | r :: rs => decide (r.start < r.stop) && decide (prevEnd ≤ r.start) && validFrom r.stop rs

/-- `validRangeSet` (range.go, lines 30-40): each range non-empty
(`Start < End`) and sorted without overlap (`prev.End ≤ Start`). -/
def validRangeSet : List LeafRange → Bool
  | [] => true
  | r :: rs => decide (r.start < r.stop) && validFrom r.stop rs

/-- `math.MaxUint64`, the unbounded target of the builder's trailing
consume. -/
def U64MAX : Nat := 2 ^ 64 - 1

/-- The builder's `consumeUntil` loop (range.go, lines 259-270): request the
root of the next `nextSubtreeSize` leaves and append it to the proof until the
cursor reaches `e` or the source errors; an error is returned beside the proof
accumulated so far (Go's closure leaves `proof` assigned).  Each step advances
the cursor by at least one, so `e - cursor` iterations of fuel are exact for
the reachable (cursor ≤ e) states. -/
def consumeUntilB {D σ : Type} (ops : SHOps D σ) :
    Nat → σ → List D → Nat → Nat → List D × σ × Nat × Option MErr
  | 0, s, proof, leafIndex, _ => (proof, s, leafIndex, none)
  | fuel + 1, s, proof, leafIndex, e =>
    if leafIndex = e then (proof, s, leafIndex, none)
    else
      let size := nextSubtreeSize leafIndex e
      match ops.next s size with
      | .error err => (proof, s, leafIndex, some err)
      | .ok (r, s') => consumeUntilB ops fuel s' (proof ++ [r]) (leafIndex + size) e

/-- The builder's in-range skip loop (range.go, lines 277-284 and diff.go,
lines 130-136). -/
def skipUntilB {D σ : Type} (ops : SHOps D σ) :
    Nat → σ → Nat → Nat → Except MErr (σ × Nat)
  | 0, s, leafIndex, _ => .ok (s, leafIndex)
  | fuel + 1, s, leafIndex, e =>
    if leafIndex = e then .ok (s, leafIndex)
    else
      let size := nextSubtreeSize leafIndex e
      match ops.skip s size with
      | .error err => .error err
      | .ok s' => skipUntilB ops fuel s' (leafIndex + size) e

/-- The per-range loop of `BuildMultiRangeProof` (range.go, lines 272-285). -/
def buildRangesB {D σ : Type} (ops : SHOps D σ) :
    List LeafRange → σ → List D → Nat → Except MErr (List D × σ × Nat)
  | [], s, proof, leafIndex => .ok (proof, s, leafIndex)
  | r :: rs, s, proof, leafIndex =>
    match consumeUntilB ops (r.start - leafIndex) s proof leafIndex r.start with
    | (_, _, _, some err) => .error err
    | (proof', s', li', none) =>
      match skipUntilB ops (r.stop - li') s' li' r.stop with
      | .error err => .error err
      | .ok (s'', li'') => buildRangesB ops rs s'' proof' li''

/-- `BuildMultiRangeProof` (range.go, lines 189-293): an empty range set yields
an empty proof (Go returns `nil, nil`); an invalid set is a Go panic, modelled
as the `invalid` error; otherwise walk the ranges and then consume up to
`MaxUint64`, treating `EOF` as normal termination.  (On a non-EOF trailing
error Go also hands back the partial proof next to the error; the model keeps
only the error.) -/
def buildMultiRangeProof {D σ : Type} (ops : SHOps D σ) (s : σ)
    (ranges : List LeafRange) : Except MErr (List D) :=
  if ranges.isEmpty then .ok []
  else if !validRangeSet ranges then .error .invalid
  else
    match buildRangesB ops ranges s [] 0 with
    | .error err => .error err
    | .ok (proof, s', li) =>
      match consumeUntilB ops (U64MAX - li) s' proof li U64MAX with
      | (proof', _, _, none) => .ok proof'
      | (proof', _, _, some .eof) => .ok proof'
      | (_, _, _, some err) => .error err

/-- The verifier's `consumeUntil` loop (range.go, lines 377-391 and diff.go,
lines 176-187): pop hashes from the given stream and insert each at height
`log2 size` until the cursor reaches `e` or the stream is exhausted; a
`PushSubTree` failure aborts, leaving the partially built tree (Go mutates the
tree in place). -/
def consumeUntilV {D : Type} (hN : D → D → D) :
    Nat → Tree D → List D → Nat → Nat → Tree D × List D × Nat × Option MErr
  | 0, t, proof, leafIndex, _ => (t, proof, leafIndex, none)
  | fuel + 1, t, proof, leafIndex, e =>
    if leafIndex = e then (t, proof, leafIndex, none)
    else
      match proof with
      | [] => (t, [], leafIndex, none)
      | p :: rest =>
        let size := nextSubtreeSize leafIndex e
        match Tree.pushSubTree hN t (tz64 size) p with
        | .error err => (t, p :: rest, leafIndex, some (.tree err))
        | .ok t' => consumeUntilV hN fuel t' rest (leafIndex + size) e

/-- The in-range loop of `VerifyMultiRangeProof` (range.go, lines 398-407): pop
`count` leaf hashes, inserting each at height 0; exhaustion of the leaf hasher
is its `NextLeafHash` error, and a push failure is Go's `panic(err)`, modelled
as an error. -/
def pushLeavesV {D : Type} (hN : D → D → D) :
    Nat → Tree D → List D → Except MErr (Tree D × List D)
  | 0, t, lh => .ok (t, lh)
  | count + 1, t, lh =>
    match lh with
    | [] => .error .eof
    | d :: rest =>
      match Tree.pushSubTree hN t 0 d with
      | .error err => .error (.tree err)
      | .ok t' => pushLeavesV hN count t' rest

/-- The per-range loop of `VerifyMultiRangeProof` (range.go, lines 393-409);
after a range the cursor advances by exactly `End - Start`. -/
def verifyRangesV {D : Type} (hN : D → D → D) :
    List LeafRange → Tree D → List D → List D → Nat →
      Except MErr (Tree D × List D × List D × Nat)
  | [], t, lh, proof, leafIndex => .ok (t, lh, proof, leafIndex)
  | r :: rs, t, lh, proof, leafIndex =>
    match consumeUntilV hN (r.start - leafIndex) t proof leafIndex r.start with
    | (_, _, _, some err) => .error err
    | (t', proof', li', none) =>
      match pushLeavesV hN (r.stop - r.start) t' lh with
      | .error err => .error err
      | .ok (t'', lh') => verifyRangesV hN rs t'' lh' proof' (li' + (r.stop - r.start))

/-- `VerifyMultiRangeProof` (range.go, lines 366-417), the leaf hashes supplied
as a list (`CachedLeafHasher`, range.go lines 339-353).  The result pair
mirrors Go's `(bool, error)`; the panic on an invalid range set is modelled as
the `invalid` error. -/
def verifyMultiRangeProof {D : Type} [DecidableEq D] (hN : D → D → D) (lh : List D)
    (ranges : List LeafRange) (proof : List D) (root : D) : Bool × Option MErr :=
  if ranges.isEmpty then (true, none)
  else if !validRangeSet ranges then (false, some .invalid)
  else
    match verifyRangesV hN ranges (Tree.new D) lh proof 0 with
    | .error err => (false, some err)
    | .ok (t, _, proof', li) =>
      match consumeUntilV hN (U64MAX - li) t proof' li U64MAX with
      | (_, _, _, some err) => (false, some err)
      | (t', _, _, none) => (decide (Tree.root hN t' = some root), none)

/-- `BuildDiffProof` (diff.go, lines 105-143): the multi-range builder with the
trailing consume targeting `numLeaves` instead of `MaxUint64`, and no
empty-set shortcut. -/
def buildDiffProof {D σ : Type} (ops : SHOps D σ) (s : σ) (ranges : List LeafRange)
    (numLeaves : Nat) : Except MErr (List D) :=
  if !validRangeSet ranges then .error .invalid
  else
    match buildRangesB ops ranges s [] 0 with
    | .error err => .error err
    | .ok (proof, s', li) =>
      match consumeUntilB ops (numLeaves - li) s' proof li numLeaves with
      | (proof', _, _, none) => .ok proof'
      | (proof', _, _, some .eof) => .ok proof'
      | (_, _, _, some err) => .error err

/-- The per-range loop of `CompressLeafHashes` (diff.go, lines 153-163): for
each range, the builder's consume loop against that range's own end, the hasher
supplying the in-range leaf hashes. -/
def compressRanges {D σ : Type} (ops : SHOps D σ) :
    List LeafRange → σ → List D → Except MErr (List D × σ)
  | [], s, acc => .ok (acc, s)
  | r :: rs, s, acc =>
    match consumeUntilB ops (r.stop - r.start) s acc r.start r.stop with
    | (_, _, _, some err) => .error err
    | (acc', s', _, none) => compressRanges ops rs s' acc'

/-- `CompressLeafHashes` (diff.go, lines 149-165). -/
def compressLeafHashes {D σ : Type} (ops : SHOps D σ) (ranges : List LeafRange)
    (s : σ) : Except MErr (List D) :=
  if !validRangeSet ranges then .error .invalid
  else
    match compressRanges ops ranges s [] with
    | .error err => .error err
    | .ok (acc, _) => .ok acc

/-- The per-range loop of `VerifyDiffProof` (diff.go, lines 188-195): gaps are
filled from `proof`, declared ranges from `rangeHashes`, through the same
consume loop. -/
def verifyDiffRanges {D : Type} (hN : D → D → D) :
    List LeafRange → Tree D → List D → List D → Nat →
      Except MErr (Tree D × List D × List D × Nat)
  | [], t, rangeHashes, proof, leafIndex => .ok (t, rangeHashes, proof, leafIndex)
  | r :: rs, t, rangeHashes, proof, leafIndex =>
    match consumeUntilV hN (r.start - leafIndex) t proof leafIndex r.start with
    | (_, _, _, some err) => .error err
    | (t', proof', li', none) =>
      match consumeUntilV hN (r.stop - li') t' rangeHashes li' r.stop with
      | (_, _, _, some err) => .error err
      | (t'', rh', li'', none) => verifyDiffRanges hN rs t'' rh' proof' li''

/-- `VerifyDiffProof` (diff.go, lines 170-198): the trailing gap consume
targets `numLeaves`, and the root comparison is returned together with any
error from that trailing consume, exactly as Go returns
`bytes.Equal(tree.Root(), root), err`. -/
def verifyDiffProof {D : Type} [DecidableEq D] (hN : D → D → D) (rangeHashes : List D)
    (numLeaves : Nat) (ranges : List LeafRange) (proof : List D) (root : D) :
    Bool × Option MErr :=
  if !validRangeSet ranges then (false, some .invalid)
  else
    match verifyDiffRanges hN ranges (Tree.new D) rangeHashes proof 0 with
    | .error err => (false, some err)
    | .ok (t, _, proof', li) =>
      match consumeUntilV hN (numLeaves - li) t proof' li numLeaves with
      | (t', _, _, e) => (decide (Tree.root hN t' = some root), e)

/-- **C10**: `BuildMultiRangeProof` treats the empty range set as legal,
returning an empty proof and no error, and `VerifyMultiRangeProof` returns
true immediately for the empty range set — for every proof list, every leaf
hasher and every candidate root, consuming nothing and comparing nothing. -/
theorem empty_range_set_trivial {D : Type} [DecidableEq D] (hN : D → D → D) :
    (∀ (σ : Type) (ops : SHOps D σ) (s : σ), buildMultiRangeProof ops s [] = .ok []) ∧
    (∀ (lh proof : List D) (root : D),
      verifyMultiRangeProof hN lh [] proof root = (true, none)) :=
  ⟨fun _ _ _ => rfl, fun _ _ _ => rfl⟩


/-! ### Stack-shape algebra for the walk proofs -/

/-- One height-0 insertion with binary-counter merging. -/
def push0 {D : Type} (hN : D → D → D) (st : List (SubTree D)) (d : D) :
    List (SubTree D) :=
  joinStackP hN ⟨0, d⟩ st

/-- The canonical accumulator stack of a leaf-hash sequence. -/
def accStack {D : Type} (hN : D → D → D) (hs : List D) : List (SubTree D) :=
  hs.foldl (push0 hN) []

theorem nextSubtreeSize_spec {c e : Nat} (h1 : c < e) (h2 : e < 2 ^ 64) :
    ∃ k, nextSubtreeSize c e = 2 ^ k ∧ 2 ^ k ∣ c ∧ c + 2 ^ k ≤ e := by
  obtain ⟨⟨⟨k, hk⟩, hmod, hle⟩, -⟩ := nextSubtreeSize_isGreatest c e h1 h2
  exact ⟨k, hk, Nat.dvd_of_mod_eq_zero (hk ▸ hmod), hk ▸ hle⟩

theorem tz64_two_pow (k : Nat) : tz64 (2 ^ k) = k := by
  have hne : (2 : Nat) ^ k ≠ 0 := by positivity
  have hge : k ≤ tz64 (2 ^ k) := le_tz64_of_pow_dvd hne dvd_rfl
  have hodd := (tz64_spec _ hne).2
  by_contra hc
  have hgt : k < tz64 (2 ^ k) := by omega
  have hz : (2 : Nat) ^ k / 2 ^ tz64 (2 ^ k) = 0 := by
    apply Nat.div_eq_of_lt
    exact Nat.pow_lt_pow_right (by omega) hgt
  rw [hz] at hodd
  omega

theorem stCount_eq_zero {D : Type} {st : List (SubTree D)} (h : stCount st = 0) :
    st = [] := by
  cases st with
  | nil => rfl
  | cons a rest =>
    exfalso
    have : 0 < 2 ^ a.height := by positivity
    have h1 : stCount (a :: rest) = 2 ^ a.height + stCount rest := rfl
    omega

theorem sorted_all_ge_head {D : Type} {a : SubTree D} {rest : List (SubTree D)}
    (hs : stSorted (a :: rest)) : ∀ e ∈ a :: rest, a.height ≤ e.height := by
  intro e he
  rcases List.mem_cons.mp he with rfl | he'
  · exact le_rfl
  · exact le_of_lt ((List.pairwise_cons.mp hs).1 e he')

theorem foldl_push0_sorted_count {D : Type} (hN : D → D → D) :
    ∀ (hs : List D) (st : List (SubTree D)), stSorted st →
      stSorted (hs.foldl (push0 hN) st) ∧
        stCount (hs.foldl (push0 hN) st) = stCount st + hs.length := by
  intro hs
  induction hs with
  | nil => intro st h; exact ⟨h, by simp⟩
  | cons d rest ih =>
    intro st h
    have h0 := joinStackP_sorted_count hN st ⟨0, d⟩ h (alignedTo_zero d st)
    obtain ⟨ih1, ih2⟩ := ih (push0 hN st d) h0.1
    refine ⟨ih1, ?_⟩
    rw [List.foldl_cons] at *
    rw [ih2]
    show stCount (push0 hN st d) + rest.length = stCount st + (rest.length + 1)
    have : stCount (push0 hN st d) = 2 ^ (0 : Nat) + stCount st := h0.2
    rw [this]
    norm_num
    omega

theorem accStack_sorted {D : Type} (hN : D → D → D) (hs : List D) :
    stSorted (accStack hN hs) :=
  (foldl_push0_sorted_count hN hs [] List.Pairwise.nil).1

theorem accStack_count {D : Type} (hN : D → D → D) (hs : List D) :
    stCount (accStack hN hs) = hs.length := by
  have := (foldl_push0_sorted_count hN hs [] List.Pairwise.nil).2
  simpa [stCount] using this

theorem accStack_append {D : Type} (hN : D → D → D) (xs ys : List D) :
    accStack hN (xs ++ ys) = ys.foldl (push0 hN) (accStack hN xs) := by
  unfold accStack
  rw [List.foldl_append]

/-- The accumulator stack of exactly `2^h` leaf hashes is one entry of height
`h`. -/
theorem accStack_pow2_single {D : Type} (hN : D → D → D) {hs : List D} {h : Nat}
    (hlen : hs.length = 2 ^ h) : ∃ r, accStack hN hs = [⟨h, r⟩] := by
  have hsort := accStack_sorted hN hs
  have hcount := accStack_count hN hs
  rw [hlen] at hcount
  cases hst : accStack hN hs with
  | nil =>
    exfalso
    rw [hst] at hcount
    have : stCount ([] : List (SubTree D)) = 0 := rfl
    have h2 : (0 : Nat) < 2 ^ h := by positivity
    omega
  | cons a rest =>
    rw [hst] at hsort hcount
    have hle : h ≤ a.height :=
      le_head_of_pow_dvd_stCount hsort (by rw [hcount])
    have hcons : stCount (a :: rest) = 2 ^ a.height + stCount rest := rfl
    have hge : a.height ≤ h := by
      by_contra hc
      push_neg at hc
      have : 2 ^ h < 2 ^ a.height := Nat.pow_lt_pow_right (by omega) hc
      omega
    have heq : a.height = h := by omega
    have hrest : stCount rest = 0 := by
      rw [heq] at hcons
      omega
    rw [stCount_eq_zero hrest] at *
    refine ⟨a.sum, ?_⟩
    have ha : a = ⟨h, a.sum⟩ := by
      obtain ⟨ah, asum⟩ := a
      simp only [SubTree.mk.injEq]
      exact ⟨heq, trivial⟩
    rw [← ha]

theorem joinStackP_no_merge {D : Type} (hN : D → D → D) (a : SubTree D)
    (st : List (SubTree D))
    (h : ∀ b rest, st = b :: rest → a.height ≠ b.height) :
    joinStackP hN a st = a :: st := by
  cases st with
  | nil => rfl
  | cons b rest =>
    rw [joinStackP, if_neg (h b rest rfl)]

/-- Pushing a perfect chunk's combined root at its height is the same stack
operation as pushing the chunk's leaves one by one, on any aligned stack. -/
theorem chunk_push {D : Type} (hN : D → D → D) :
    ∀ (h : Nat) (ds : List D) (st : List (SubTree D)) (r : D),
      ds.length = 2 ^ h → accStack hN ds = [⟨h, r⟩] →
      stSorted st → alignedTo ⟨h, r⟩ st →
      ds.foldl (push0 hN) st = joinStackP hN ⟨h, r⟩ st := by
  intro h
  induction h with
  | zero =>
    intro ds st r hlen hacc _ _
    match ds, hlen with
    | [d], _ =>
      have hd : accStack hN [d] = [⟨0, d⟩] := rfl
      rw [hd] at hacc
      injection hacc with h1 h2
      injection h1 with h3 h4
      rw [← h4]
      rfl
  | succ h ih =>
    intro ds st r hlen hacc hsort halign
    set l := ds.take (2 ^ h) with hldef
    set rr := ds.drop (2 ^ h) with hrdef
    have hlsplit : ds = l ++ rr := (List.take_append_drop _ ds).symm
    have hllen : l.length = 2 ^ h := by
      rw [hldef, List.length_take]
      have : 2 ^ h ≤ ds.length := by
        rw [hlen, pow_succ]
        have : 0 < 2 ^ h := by positivity
        omega
      omega
    have hrlen : rr.length = 2 ^ h := by
      rw [hrdef, List.length_drop, hlen, pow_succ]
      have : 0 < 2 ^ h := by positivity
      omega
    obtain ⟨ρl, hρl⟩ := accStack_pow2_single hN hllen
    obtain ⟨ρr, hρr⟩ := accStack_pow2_single hN hrlen
    -- the combined chunk stack is the merged pair
    have hcomb : accStack hN ds = [⟨h + 1, hN ρl ρr⟩] := by
      rw [hlsplit, accStack_append, hρl]
      have hih := ih rr [⟨h, ρl⟩] ρr hrlen hρr (List.pairwise_singleton _ _) le_rfl
      rw [hih]
      show joinStackP hN ⟨h, ρr⟩ [⟨h, ρl⟩] = _
      rw [joinStackP, if_pos rfl]
      rfl
    rw [hcomb] at hacc
    injection hacc with h1 h2
    injection h1 with h3 h4
    -- the incoming stack has all heights above h
    have hhigh : ∀ b rest, st = b :: rest → h < b.height := by
      intro b rest hst
      rw [hst] at halign
      have : h + 1 ≤ b.height := halign
      omega
    have hstep1 : l.foldl (push0 hN) st = ⟨h, ρl⟩ :: st := by
      rw [ih l st ρl hllen hρl hsort (by
        cases st with
        | nil => trivial
        | cons b rest => exact le_of_lt (hhigh b rest rfl))]
      exact joinStackP_no_merge hN _ st (fun b rest hst => by
        have := hhigh b rest hst
        show h ≠ b.height
        omega)
    have hsort2 : stSorted (⟨h, ρl⟩ :: st) := by
      unfold stSorted
      rw [List.pairwise_cons]
      constructor
      · intro e he
        cases st with
        | nil => cases he
        | cons b rest =>
          have hball := sorted_all_ge_head hsort
          have := hball e he
          have := hhigh b rest rfl
          show h < e.height
          omega
      · exact hsort
    have hstep2 : rr.foldl (push0 hN) (⟨h, ρl⟩ :: st) =
        joinStackP hN ⟨h + 1, hN ρl ρr⟩ st := by
      rw [ih rr (⟨h, ρl⟩ :: st) ρr hrlen hρr hsort2 le_rfl]
      show joinStackP hN ⟨h, ρr⟩ (⟨h, ρl⟩ :: st) = _
      rw [joinStackP, if_pos rfl]
    rw [hlsplit, List.foldl_append, hstep1, hstep2, ← h4]


/-- A merge cascade whose total stays below `2^h` never reaches entries of
height `≥ h` stacked beneath. -/
theorem joinStackP_append_high {D : Type} (hN : D → D → D) :
    ∀ (xs st2 : List (SubTree D)) (a : SubTree D) (h : Nat),
      stSorted xs → alignedTo a xs → stCount xs + 2 ^ a.height < 2 ^ h →
      (∀ e ∈ st2, h ≤ e.height) →
      joinStackP hN a (xs ++ st2) = joinStackP hN a xs ++ st2 := by
  intro xs
  induction xs with
  | nil =>
    intro st2 a h _ _ hcount hall
    have hah : a.height < h := by
      have h1 : (2 : Nat) ^ a.height < 2 ^ h := by
        have : stCount ([] : List (SubTree D)) = 0 := rfl
        omega
      by_contra hc
      push_neg at hc
      have : (2 : Nat) ^ h ≤ 2 ^ a.height := Nat.pow_le_pow_right (by omega) hc
      omega
    rw [List.nil_append]
    have h2 : joinStackP hN a st2 = a :: st2 := by
      apply joinStackP_no_merge
      intro b rest hst
      have := hall b (by rw [hst]; simp)
      omega
    rw [h2]
    rfl
  | cons b rest ih =>
    intro st2 a h hsort halign hcount hall
    have hrest : stSorted rest := (List.pairwise_cons.mp hsort).2
    have hball : ∀ e ∈ rest, b.height < e.height := (List.pairwise_cons.mp hsort).1
    by_cases heq : a.height = b.height
    · rw [List.cons_append, joinStackP, if_pos heq, joinStackP, if_pos heq]
      apply ih st2 ⟨a.height + 1, hN b.sum a.sum⟩ h hrest
      · cases rest with
        | nil => trivial
        | cons c rest' =>
          show a.height + 1 ≤ c.height
          have := hball c (by simp)
          omega
      · show stCount rest + 2 ^ (a.height + 1) < 2 ^ h
        have h1 : stCount (b :: rest) = 2 ^ b.height + stCount rest := rfl
        rw [pow_succ]
        rw [← heq] at h1
        omega
      · exact hall
    · rw [List.cons_append, joinStackP, if_neg heq, joinStackP, if_neg heq]
      rfl

theorem foldl_push0_append_high {D : Type} (hN : D → D → D) :
    ∀ (ds : List D) (xs st2 : List (SubTree D)) (h : Nat),
      stSorted xs → stCount xs + ds.length < 2 ^ h → (∀ e ∈ st2, h ≤ e.height) →
      ds.foldl (push0 hN) (xs ++ st2) = ds.foldl (push0 hN) xs ++ st2 := by
  intro ds
  induction ds with
  | nil => intro xs st2 h _ _ _; rfl
  | cons d dsrest ih =>
    intro xs st2 h hsort hcount hall
    rw [List.foldl_cons, List.foldl_cons]
    have hstep : push0 hN (xs ++ st2) d = push0 hN xs d ++ st2 := by
      apply joinStackP_append_high hN xs st2 ⟨0, d⟩ h hsort (alignedTo_zero d xs)
      · show stCount xs + 2 ^ (0 : Nat) < 2 ^ h
        have : dsrest.length + 1 = (d :: dsrest).length := by simp
        norm_num
        omega
      · exact hall
    rw [hstep]
    obtain ⟨hsort', hcount'⟩ :=
      joinStackP_sorted_count hN xs ⟨0, d⟩ hsort (alignedTo_zero d xs)
    apply ih (push0 hN xs d) st2 h hsort' _ hall
    show stCount (push0 hN xs d) + dsrest.length < 2 ^ h
    have : stCount (push0 hN xs d) = 2 ^ (0 : Nat) + stCount xs := hcount'
    rw [this]
    norm_num
    have hlen : (d :: dsrest).length = dsrest.length + 1 := by simp
    omega

/-- Merging does not change the combined root. -/
theorem stackRoot_joinStackP {D : Type} (hN : D → D → D) :
    ∀ (st : List (SubTree D)) (a : SubTree D),
      stackRoot hN (joinStackP hN a st) = stackRoot hN (a :: st) := by
  intro st
  induction st with
  | nil => intro a; rfl
  | cons b rest ih =>
    intro a
    by_cases heq : a.height = b.height
    · rw [joinStackP, if_pos heq, ih]
      show some (rootFold hN (hN b.sum a.sum) rest) = some (rootFold hN a.sum (b :: rest))
      rfl
    · rw [joinStackP, if_neg heq]

theorem rootFold_append {D : Type} (hN : D → D → D) (acc : D)
    (xs ys : List (SubTree D)) :
    rootFold hN acc (xs ++ ys) = rootFold hN (rootFold hN acc xs) ys := by
  induction xs generalizing acc with
  | nil => rfl
  | cons b rest ih =>
    rw [List.cons_append]
    show rootFold hN (hN b.sum acc) (rest ++ ys) = _
    rw [ih]
    rfl

theorem pushSubTree_ok_of_aligned {D : Type} (hN : D → D → D) (t : Tree D) (h : Nat)
    (d : D) (hpt : t.proofTree = false) (halign : alignedTo ⟨h, d⟩ t.stack) :
    ∃ t', Tree.pushSubTree hN t h d = .ok t' ∧
      t'.stack = joinStackP hN ⟨h, d⟩ t.stack ∧
      t'.currentIndex = t.currentIndex + 2 ^ h ∧ t'.proofTree = false ∧
      t'.proofIndex = t.proofIndex := by
  have hspec := pushSubTree_error_iff hN t h d
  have hne : ¬∃ e, Tree.pushSubTree hN t h d = .error e := by
    intro he
    rcases hspec.1.mp he with hA | hB
    · obtain ⟨s, rest, hst, hlt⟩ := hA
      rw [hst] at halign
      have : h ≤ s.height := halign
      omega
    · rw [hpt] at hB
      cases hB.1
  cases hres : Tree.pushSubTree hN t h d with
  | error e => exact absurd ⟨e, hres⟩ hne
  | ok t' =>
    obtain ⟨h1, h2, h3, h4⟩ := hspec.2 t' hres
    exact ⟨t', rfl, h1, h2, by rw [h3, hpt], h4⟩

theorem pushLeafHashes_spec {D : Type} (hN : D → D → D) :
    ∀ (hs : List D) (t : Tree D), t.proofTree = false →
      ∃ t', pushLeafHashes hN t hs = .ok t' ∧
        t'.stack = hs.foldl (push0 hN) t.stack ∧ t'.proofTree = false := by
  intro hs
  induction hs with
  | nil => intro t hpt; exact ⟨t, rfl, rfl, hpt⟩
  | cons d rest ih =>
    intro t hpt
    obtain ⟨t1, hok, hst, hci, hptt, hpi⟩ :=
      pushSubTree_ok_of_aligned hN t 0 d hpt (alignedTo_zero d t.stack)
    obtain ⟨t', hok', hst', hpt'⟩ := ih t1 hptt
    refine ⟨t', ?_, ?_, hpt'⟩
    · show (d :: rest).foldlM (fun t d => Tree.pushSubTree hN t 0 d) t = .ok t'
      rw [List.foldlM_cons, hok]
      simpa [pushLeafHashes] using hok'
    · rw [hst', hst]
      rfl

/-- `cachedNext` on a full chunk returns the chunk's combined root and the
advanced cache. -/
theorem cachedNext_full {D : Type} (hN : D → D → D) (chunk tail : List D) (n : Nat)
    (hn : 1 ≤ n) (hlen : chunk.length = n) :
    ∃ r, cachedNext hN (chunk ++ tail) n = .ok (r, tail) ∧
      stackRoot hN (accStack hN chunk) = some r := by
  have hne : chunk ≠ [] := by
    intro h
    rw [h] at hlen
    simp at hlen
    omega
  have hnonempty : (chunk ++ tail).isEmpty = false := by
    cases chunk with
    | nil => exact absurd rfl hne
    | cons a b => rfl
  have htake : (chunk ++ tail).take n = chunk := by
    rw [List.take_append_of_le_length (by omega), List.take_of_length_le (by omega)]
  have hdrop : (chunk ++ tail).drop n = tail := by
    rw [List.drop_append_of_le_length (by omega), List.drop_eq_nil_of_le (by omega),
      List.nil_append]
  obtain ⟨t', hok, hst, -⟩ := pushLeafHashes_spec hN chunk (Tree.new D) rfl
  have hstacc : t'.stack = accStack hN chunk := hst
  have hcount : stCount t'.stack = chunk.length := by
    rw [hstacc, accStack_count]
  have hstne : t'.stack ≠ [] := by
    intro h
    rw [h] at hcount
    have : stCount ([] : List (SubTree D)) = 0 := rfl
    omega
  obtain ⟨a, rest, hcons⟩ := List.exists_cons_of_ne_nil hstne
  refine ⟨rootFold hN a.sum rest, ?_, ?_⟩
  · unfold cachedNext
    rw [hnonempty, htake, hok, hdrop]
    have hroot : Tree.root hN t' = some (rootFold hN a.sum rest) := by
      unfold Tree.root
      rw [hcons]
      rfl
    simp only [Bool.false_eq_true, if_false]
    show (match Tree.root hN t' with
          | some r => Except.ok (r, tail)
          | none => Except.error (MErr.tree TreeErr.tooLarge)) = _
    rw [hroot]
  · rw [← hstacc, hcons]
    rfl


/-! ### Single-step unfolding lemmas for the walk loops -/

theorem consumeUntilB_step {D σ : Type} (ops : SHOps D σ) (fuel c e : Nat) (s : σ)
    (acc : List D) (r : D) (s' : σ) (hne : c ≠ e)
    (hnext : ops.next s (nextSubtreeSize c e) = .ok (r, s')) :
    consumeUntilB ops (fuel + 1) s acc c e =
      consumeUntilB ops fuel s' (acc ++ [r]) (c + nextSubtreeSize c e) e := by
  rw [consumeUntilB, if_neg hne]
  show (match ops.next s (nextSubtreeSize c e) with
        | Except.error err => (acc, s, c, some err)
        | Except.ok (r, s') =>
          consumeUntilB ops fuel s' (acc ++ [r]) (c + nextSubtreeSize c e) e) = _
  rw [hnext]

theorem consumeUntilB_step_err {D σ : Type} (ops : SHOps D σ) (fuel c e : Nat) (s : σ)
    (acc : List D) (err : MErr) (hne : c ≠ e)
    (hnext : ops.next s (nextSubtreeSize c e) = .error err) :
    consumeUntilB ops (fuel + 1) s acc c e = (acc, s, c, some err) := by
  rw [consumeUntilB, if_neg hne]
  show (match ops.next s (nextSubtreeSize c e) with
        | Except.error err => (acc, s, c, some err)
        | Except.ok (r, s') =>
          consumeUntilB ops fuel s' (acc ++ [r]) (c + nextSubtreeSize c e) e) = _
  rw [hnext]

theorem consumeUntilV_step {D : Type} (hN : D → D → D) (fuel c e : Nat) (t : Tree D)
    (p : D) (rest : List D) (t' : Tree D) (hne : c ≠ e)
    (hpush : Tree.pushSubTree hN t (tz64 (nextSubtreeSize c e)) p = .ok t') :
    consumeUntilV hN (fuel + 1) t (p :: rest) c e =
      consumeUntilV hN fuel t' rest (c + nextSubtreeSize c e) e := by
  rw [consumeUntilV, if_neg hne]
  show (match Tree.pushSubTree hN t (tz64 (nextSubtreeSize c e)) p with
        | Except.error err => (t, p :: rest, c, some (MErr.tree err))
        | Except.ok t' => consumeUntilV hN fuel t' rest (c + nextSubtreeSize c e) e) = _
  rw [hpush]

theorem consumeUntilV_exhausted {D : Type} (hN : D → D → D) (fuel c e : Nat)
    (t : Tree D) (hne : c ≠ e) :
    consumeUntilV hN (fuel + 1) t [] c e = (t, [], c, none) := by
  rw [consumeUntilV, if_neg hne]

theorem consumeUntilV_stop {D : Type} (hN : D → D → D) (fuel : Nat) (t : Tree D)
    (proof : List D) (c : Nat) :
    consumeUntilV hN fuel t proof c c = (t, proof, c, none) := by
  cases fuel with
  | zero => rfl
  | succ fuel =>
    cases proof with
    | nil => rw [consumeUntilV, if_pos rfl]
    | cons p rest => rw [consumeUntilV, if_pos rfl]

theorem skipUntilB_step {D σ : Type} (ops : SHOps D σ) (fuel c e : Nat) (s s' : σ)
    (hne : c ≠ e) (hskip : ops.skip s (nextSubtreeSize c e) = .ok s') :
    skipUntilB ops (fuel + 1) s c e = skipUntilB ops fuel s' (c + nextSubtreeSize c e) e := by
  rw [skipUntilB, if_neg hne]
  show (match ops.skip s (nextSubtreeSize c e) with
        | Except.error err => Except.error err
        | Except.ok s' => skipUntilB ops fuel s' (c + nextSubtreeSize c e) e) = _
  rw [hskip]

/-- The verification tree built from the first `c` leaves accepts any subtree
push whose size divides `c`. -/
theorem aligned_of_dvd {D : Type} (hN : D → D → D) (hs : List D) (c k : Nat) (r : D)
    (hdvd : 2 ^ k ∣ c) (hc : c ≤ hs.length) :
    alignedTo ⟨k, r⟩ (accStack hN (hs.take c)) := by
  have hcount : stCount (accStack hN (hs.take c)) = c := by
    rw [accStack_count, List.length_take]
    omega
  cases hacc : accStack hN (hs.take c) with
  | nil => trivial
  | cons a rest =>
    show k ≤ a.height
    have hsort := accStack_sorted hN (hs.take c)
    rw [hacc] at hsort hcount
    exact le_head_of_pow_dvd_stCount hsort (by rw [hcount]; exact hdvd)

/-- The gap walk, coupled: over `[c, e)` the cached builder emits one combined
root per aligned subtree and leaves the cache at `e`; the verifier pushes those
same roots at the same heights and reaches the accumulator stack of the first
`e` leaves.  The same walk also describes `CompressLeafHashes` on one range
(the cached source then holds the in-range hashes). -/
theorem gap_couple {D : Type} (hN : D → D → D) (hs : List D) (hbig : hs.length < 2 ^ 63) :
    ∀ (fuel c e : Nat) (tail acc : List D) (t : Tree D),
      c ≤ e → e ≤ hs.length → e - c ≤ fuel →
      t.stack = accStack hN (hs.take c) → t.proofTree = false →
      ∃ (entries : List D) (t' : Tree D),
        consumeUntilB (cachedOps hN) fuel ((hs.drop c).take (e - c) ++ tail) acc c e =
          (acc ++ entries, tail, e, none) ∧
        (∀ restProof : List D,
          consumeUntilV hN fuel t (entries ++ restProof) c e =
            (t', restProof, e, none)) ∧
        t'.stack = accStack hN (hs.take e) ∧ t'.proofTree = false := by
  intro fuel
  induction fuel with
  | zero =>
    intro c e tail acc t hce hel hfuel hst hpt
    have hceq : c = e := by omega
    subst hceq
    refine ⟨[], t, ?_, fun restProof => by simp [consumeUntilV], hst, hpt⟩
    simp [consumeUntilB]
  | succ fuel ih =>
    intro c e tail acc t hce hel hfuel hst hpt
    by_cases hceq : c = e
    · subst hceq
      refine ⟨[], t, ?_, fun restProof => ?_, hst, hpt⟩
      · rw [consumeUntilB, if_pos rfl]
        simp
      · rw [List.nil_append]
        exact consumeUntilV_stop hN _ t restProof _
    · have hclt : c < e := by omega
      have he64 : e < 2 ^ 64 := by
        have h63 : (2 : Nat) ^ 63 < 2 ^ 64 := by norm_num
        omega
      obtain ⟨k, hsz, hdvd, hbound⟩ := nextSubtreeSize_spec hclt he64
      have hsize1 : 1 ≤ nextSubtreeSize c e := by rw [hsz]; exact Nat.one_le_two_pow
      have hchunklen : ((hs.drop c).take (nextSubtreeSize c e)).length =
          nextSubtreeSize c e := by
        rw [List.length_take, List.length_drop]
        omega
      have hsplit : (hs.drop c).take (e - c) ++ tail =
          ((hs.drop c).take (nextSubtreeSize c e)) ++
            ((hs.drop (c + nextSubtreeSize c e)).take (e - (c + nextSubtreeSize c e)) ++
              tail) := by
        have h1 : e - c = nextSubtreeSize c e + (e - (c + nextSubtreeSize c e)) := by
          omega
        rw [h1, List.take_add, List.drop_drop, List.append_assoc]
      obtain ⟨ρ, hnext, hρ⟩ := cachedNext_full hN ((hs.drop c).take (nextSubtreeSize c e))
        _ (nextSubtreeSize c e) hsize1 hchunklen
      obtain ⟨r0, hr0⟩ := @accStack_pow2_single D hN
        ((hs.drop c).take (nextSubtreeSize c e)) k
        (by rw [hchunklen, hsz])
      have hρr0 : r0 = ρ := by
        rw [hr0] at hρ
        have hsr : stackRoot hN [(⟨k, r0⟩ : SubTree D)] = some r0 := rfl
        rw [hsr] at hρ
        exact Option.some.inj hρ
      have halign0 : alignedTo ⟨k, ρ⟩ (accStack hN (hs.take c)) :=
        aligned_of_dvd hN hs c k ρ hdvd (by omega)
      obtain ⟨t1, hpush, ht1st, ht1ci, ht1pt, -⟩ :=
        pushSubTree_ok_of_aligned hN t k ρ hpt (by rw [hst]; exact halign0)
      have ht1acc : t1.stack = accStack hN (hs.take (c + nextSubtreeSize c e)) := by
        rw [ht1st, hst]
        have htadd : hs.take (c + nextSubtreeSize c e) =
            hs.take c ++ (hs.drop c).take (nextSubtreeSize c e) := List.take_add hs c _
        rw [htadd, accStack_append]
        refine (chunk_push hN k _ _ ρ ?_ ?_ (accStack_sorted hN _) halign0).symm
        · rw [hchunklen, hsz]
        · rw [← hρr0]
          exact hr0
      obtain ⟨entries', t', hB, hV, hst', hpt'⟩ :=
        ih (c + nextSubtreeSize c e) e tail (acc ++ [ρ]) t1
          (by omega) hel (by omega) ht1acc ht1pt
      refine ⟨ρ :: entries', t', ?_, fun restProof => ?_, hst', hpt'⟩
      · rw [hsplit, consumeUntilB_step (cachedOps hN) fuel c e _ acc ρ _ hceq ?hnx, hB]
        case hnx =>
          show cachedNext hN _ _ = _
          exact hnext
        simp
      · rw [show (ρ :: entries') ++ restProof = ρ :: (entries' ++ restProof) from rfl]
        rw [consumeUntilV_step hN fuel c e t ρ _ t1 hceq ?hpu, hV restProof]
        case hpu =>
          rw [hsz, tz64_two_pow]
          exact hpush


theorem skip_until_ok {D : Type} (hN : D → D → D) (hs : List D) (hbig : hs.length < 2 ^ 63) :
    ∀ (fuel c e : Nat), c ≤ e → e ≤ hs.length → e - c ≤ fuel →
      skipUntilB (cachedOps hN) fuel (hs.drop c) c e = .ok (hs.drop e, e) := by
  intro fuel
  induction fuel with
  | zero =>
    intro c e h1 h2 h3
    have hceq : c = e := by omega
    subst hceq
    rfl
  | succ fuel ih =>
    intro c e h1 h2 h3
    by_cases hceq : c = e
    · subst hceq
      rw [skipUntilB, if_pos rfl]
    · have hclt : c < e := by omega
      have he64 : e < 2 ^ 64 := by
        have h63 : (2 : Nat) ^ 63 < 2 ^ 64 := by norm_num
        omega
      obtain ⟨k, hsz, hdvd, hbound⟩ := nextSubtreeSize_spec hclt he64
      have hsize1 : 1 ≤ nextSubtreeSize c e := by rw [hsz]; exact Nat.one_le_two_pow
      have hle2 : c + nextSubtreeSize c e ≤ e := by rw [hsz]; exact hbound
      have hstep : (cachedOps hN).skip (hs.drop c) (nextSubtreeSize c e) =
          .ok (hs.drop (c + nextSubtreeSize c e)) := by
        show cachedSkip (hs.drop c) _ = _
        unfold cachedSkip
        rw [if_neg (by rw [List.length_drop]; omega), List.drop_drop,
          Nat.add_comm c (nextSubtreeSize c e)]
      rw [skipUntilB_step (cachedOps hN) fuel c e _ _ hceq hstep]
      exact ih (c + nextSubtreeSize c e) e (by omega) h2 (by omega)

theorem pushLeavesV_step {D : Type} (hN : D → D → D) (count : Nat) (t : Tree D)
    (d : D) (rest : List D) (t' : Tree D) (hok : Tree.pushSubTree hN t 0 d = .ok t') :
    pushLeavesV hN (count + 1) t (d :: rest) = pushLeavesV hN count t' rest := by
  rw [pushLeavesV]
  show (match Tree.pushSubTree hN t 0 d with
        | Except.error err => Except.error (MErr.tree err)
        | Except.ok t' => pushLeavesV hN count t' rest) = _
  rw [hok]

theorem push_leaves_generic {D : Type} (hN : D → D → D) :
    ∀ (chunk : List D) (t : Tree D), t.proofTree = false →
      ∃ t', t'.stack = chunk.foldl (push0 hN) t.stack ∧ t'.proofTree = false ∧
        ∀ lrest : List D, pushLeavesV hN chunk.length t (chunk ++ lrest) =
          .ok (t', lrest) := by
  intro chunk
  induction chunk with
  | nil => intro t hpt; exact ⟨t, rfl, hpt, fun lrest => rfl⟩
  | cons d rest ih =>
    intro t hpt
    obtain ⟨t1, hok, hst, hci, hpt1, -⟩ :=
      pushSubTree_ok_of_aligned hN t 0 d hpt (alignedTo_zero d t.stack)
    obtain ⟨t', hst', hpt', hrun⟩ := ih t1 hpt1
    refine ⟨t', ?_, hpt', fun lrest => ?_⟩
    · rw [hst', hst]
      rfl
    · rw [show (d :: rest).length = rest.length + 1 from rfl,
        show (d :: rest) ++ lrest = d :: (rest ++ lrest) from rfl,
        pushLeavesV_step hN rest.length t d (rest ++ lrest) t1 hok]
      exact hrun lrest

/-- Cursor-threaded well-formedness of a range list (what `validRangeSet`
gives the walk when the cursor stands at `c`). -/
def rangesWF : Nat → List LeafRange → Prop
  | _, [] => True
  | c, r :: rs => c ≤ r.start ∧ r.start < r.stop ∧ rangesWF r.stop rs

theorem rangesWF_of_validFrom :
    ∀ (rs : List LeafRange) (c : Nat), validFrom c rs = true → rangesWF c rs := by
  intro rs
  induction rs with
  | nil => intro c _; trivial
  | cons r rs ih =>
    intro c h
    unfold validFrom at h
    rw [Bool.and_eq_true, Bool.and_eq_true] at h
    exact ⟨of_decide_eq_true h.1.2, of_decide_eq_true h.1.1, ih r.stop h.2⟩

theorem rangesWF_of_valid (rs : List LeafRange) (h : validRangeSet rs = true) :
    rangesWF 0 rs := by
  cases rs with
  | nil => trivial
  | cons r rs =>
    unfold validRangeSet at h
    rw [Bool.and_eq_true] at h
    exact ⟨Nat.zero_le _, of_decide_eq_true h.1, rangesWF_of_validFrom rs r.stop h.2⟩

/-- The cursor position after walking a range list. -/
def lastStop : Nat → List LeafRange → Nat
  | c, [] => c
  | _, r :: rs => lastStop r.stop rs

/-- The concatenated leaf hashes lying inside the ranges: what the caller of
`VerifyMultiRangeProof` supplies through the `LeafHasher`, and what
`CompressLeafHashes`'s cached hasher holds. -/
def inRangeHashes {D : Type} (hs : List D) (ranges : List LeafRange) : List D :=
  (ranges.map (fun r => (hs.take r.stop).drop r.start)).flatten

theorem lastStop_le {hsLen : Nat} :
    ∀ (ranges : List LeafRange) (c : Nat), rangesWF c ranges →
      (∀ r ∈ ranges, r.stop ≤ hsLen) → c ≤ hsLen →
      c ≤ lastStop c ranges ∧ lastStop c ranges ≤ hsLen := by
  intro ranges
  induction ranges with
  | nil => intro c _ _ h; exact ⟨le_rfl, h⟩
  | cons r rs ih =>
    intro c hwf hb hc
    obtain ⟨h1, h2, h3⟩ := hwf
    have hr := hb r (by simp)
    obtain ⟨ih1, ih2⟩ := ih r.stop h3 (fun q hq => hb q (List.mem_cons_of_mem r hq)) hr
    exact ⟨by show c ≤ lastStop r.stop rs; omega, ih2⟩

theorem buildRangesB_cons {D σ : Type} (ops : SHOps D σ) (r : LeafRange)
    (rs : List LeafRange) (s : σ) (proof : List D) (li : Nat) (proof' : List D)
    (s' : σ) (li' : Nat) (s'' : σ) (li'' : Nat)
    (h1 : consumeUntilB ops (r.start - li) s proof li r.start = (proof', s', li', none))
    (h2 : skipUntilB ops (r.stop - li') s' li' r.stop = .ok (s'', li'')) :
    buildRangesB ops (r :: rs) s proof li = buildRangesB ops rs s'' proof' li'' := by
  rw [buildRangesB, h1]
  show (match skipUntilB ops (r.stop - li') s' li' r.stop with
        | Except.error err => Except.error err
        | Except.ok (s'', li'') => buildRangesB ops rs s'' proof' li'') = _
  rw [h2]

theorem verifyRangesV_cons {D : Type} (hN : D → D → D) (r : LeafRange)
    (rs : List LeafRange) (t : Tree D) (lh proof : List D) (li : Nat)
    (t' : Tree D) (proof' : List D) (li' : Nat) (t'' : Tree D) (lh' : List D)
    (h1 : consumeUntilV hN (r.start - li) t proof li r.start = (t', proof', li', none))
    (h2 : pushLeavesV hN (r.stop - r.start) t' lh = .ok (t'', lh')) :
    verifyRangesV hN (r :: rs) t lh proof li =
      verifyRangesV hN rs t'' lh' proof' (li' + (r.stop - r.start)) := by
  rw [verifyRangesV, h1]
  show (match pushLeavesV hN (r.stop - r.start) t' lh with
        | Except.error err => Except.error err
        | Except.ok (t'', lh') =>
          verifyRangesV hN rs t'' lh' proof' (li' + (r.stop - r.start))) = _
  rw [h2]

/-- The multi-range walk, coupled: the builder's per-range loop over the cached
full-tree source produces the gap entries and leaves the cache at the last
range end, and the verifier's per-range loop consumes exactly those entries and
the in-range leaf hashes, rebuilding the accumulator stack of the prefix. -/
theorem ranges_couple {D : Type} (hN : D → D → D) (hs : List D)
    (hbig : hs.length < 2 ^ 63) :
    ∀ (ranges : List LeafRange) (c : Nat) (acc : List D) (t : Tree D),
      rangesWF c ranges → (∀ r ∈ ranges, r.stop ≤ hs.length) → c ≤ hs.length →
      t.stack = accStack hN (hs.take c) → t.proofTree = false →
      ∃ (entries : List D) (t' : Tree D),
        buildRangesB (cachedOps hN) ranges (hs.drop c) acc c =
          .ok (acc ++ entries, hs.drop (lastStop c ranges), lastStop c ranges) ∧
        (∀ (restProof lrest : List D),
          verifyRangesV hN ranges t (inRangeHashes hs ranges ++ lrest)
              (entries ++ restProof) c =
            .ok (t', lrest, restProof, lastStop c ranges)) ∧
        t'.stack = accStack hN (hs.take (lastStop c ranges)) ∧
        t'.proofTree = false := by
  intro ranges
  induction ranges with
  | nil =>
    intro c acc t _ _ _ hst hpt
    refine ⟨[], t, by simp [buildRangesB, lastStop], fun restProof lrest => ?_, hst, hpt⟩
    show Except.ok (t, inRangeHashes hs [] ++ lrest, [] ++ restProof, c) = _
    simp [inRangeHashes, lastStop]
  | cons r rs ih =>
    intro c acc t hwf hbounds hc hst hpt
    obtain ⟨hcr, hrlt, hwfrest⟩ := hwf
    have hstop : r.stop ≤ hs.length := hbounds r (by simp)
    obtain ⟨gEntries, tg, hgB, hgV, hgst, hgpt⟩ :=
      gap_couple hN hs hbig (r.start - c) c r.start (hs.drop r.start) acc t
        hcr (by omega) le_rfl hst hpt
    have hdc : (hs.drop c).take (r.start - c) ++ hs.drop r.start = hs.drop c := by
      have hdd : hs.drop r.start = (hs.drop c).drop (r.start - c) := by
        rw [List.drop_drop]
        congr 1
        omega
      rw [hdd, List.take_append_drop]
    rw [hdc] at hgB
    have hsk := skip_until_ok hN hs hbig (r.stop - r.start) r.start r.stop
      (by omega) hstop le_rfl
    have hchlen : ((hs.take r.stop).drop r.start).length = r.stop - r.start := by
      rw [List.length_drop, List.length_take]
      omega
    obtain ⟨t1, h1st, h1pt, h1run⟩ :=
      push_leaves_generic hN ((hs.take r.stop).drop r.start) tg hgpt
    have h1stack : t1.stack = accStack hN (hs.take r.stop) := by
      rw [h1st, hgst]
      have htt : (hs.take r.stop).take r.start = hs.take r.start := by
        rw [List.take_take]
        congr 1
        omega
      have hsplit : hs.take r.stop = hs.take r.start ++ (hs.take r.stop).drop r.start := by
        conv_lhs => rw [← List.take_append_drop r.start (hs.take r.stop)]
        rw [htt]
      conv_rhs => rw [hsplit, accStack_append]
    obtain ⟨rEntries, t', hrB, hrV, hrst, hrpt⟩ :=
      ih r.stop (acc ++ gEntries) t1 hwfrest
        (fun q hq => hbounds q (List.mem_cons_of_mem r hq)) hstop h1stack h1pt
    refine ⟨gEntries ++ rEntries, t', ?_, ?_, hrst, hrpt⟩
    · rw [buildRangesB_cons (cachedOps hN) r rs _ _ _ _ _ _ _ _ hgB hsk, hrB,
        List.append_assoc]
      rfl
    · intro restProof lrest
      have hlh : inRangeHashes hs (r :: rs) ++ lrest =
          (hs.take r.stop).drop r.start ++ (inRangeHashes hs rs ++ lrest) := by
        show ((hs.take r.stop).drop r.start ++ inRangeHashes hs rs) ++ lrest = _
        rw [List.append_assoc]
      have hpr : (gEntries ++ rEntries) ++ restProof =
          gEntries ++ (rEntries ++ restProof) := List.append_assoc _ _ _
      rw [hlh, hpr]
      have hpush := h1run (inRangeHashes hs rs ++ lrest)
      rw [hchlen] at hpush
      rw [verifyRangesV_cons hN r rs t _ _ c tg (rEntries ++ restProof) r.start t1 _
        (hgV (rEntries ++ restProof)) hpush]
      have hcur : r.start + (r.stop - r.start) = r.stop := by omega
      rw [hcur]
      exact hrV restProof lrest

theorem consumeUntilB_stop {D σ : Type} (ops : SHOps D σ) (fuel : Nat) (s : σ)
    (proof : List D) (c : Nat) :
    consumeUntilB ops fuel s proof c c = (proof, s, c, none) := by
  cases fuel with
  | zero => rfl
  | succ fuel => rw [consumeUntilB, if_pos rfl]

/-- `cachedNext` when the request covers the whole remaining cache (the final,
possibly partial, chunk of the trailing consume): everything left is combined
and the cache empties. -/
theorem cachedNext_partial {D : Type} (hN : D → D → D) (chunk : List D) (n : Nat)
    (hne : chunk ≠ []) (hlen : chunk.length ≤ n) :
    ∃ r, cachedNext hN chunk n = .ok (r, []) ∧
      stackRoot hN (accStack hN chunk) = some r := by
  have hnonempty : chunk.isEmpty = false := by
    cases chunk with
    | nil => exact absurd rfl hne
    | cons a b => rfl
  have htake : chunk.take n = chunk := List.take_of_length_le hlen
  have hdrop : chunk.drop n = [] := List.drop_eq_nil_of_le hlen
  obtain ⟨t', hok, hst, -⟩ := pushLeafHashes_spec hN chunk (Tree.new D) rfl
  have hstacc : t'.stack = accStack hN chunk := hst
  have hcount : stCount t'.stack = chunk.length := by
    rw [hstacc, accStack_count]
  have hchne : chunk.length ≠ 0 := by
    intro h
    exact hne (List.length_eq_zero.mp h)
  have hstne : t'.stack ≠ [] := by
    intro h
    rw [h] at hcount
    have h0 : stCount ([] : List (SubTree D)) = 0 := rfl
    omega
  obtain ⟨a, rest, hcons⟩ := List.exists_cons_of_ne_nil hstne
  refine ⟨rootFold hN a.sum rest, ?_, ?_⟩
  · unfold cachedNext
    rw [hnonempty, htake, hok, hdrop]
    have hroot : Tree.root hN t' = some (rootFold hN a.sum rest) := by
      unfold Tree.root
      rw [hcons]
      rfl
    simp only [Bool.false_eq_true, if_false]
    show (match Tree.root hN t' with
          | some r => Except.ok (r, ([] : List D))
          | none => Except.error (MErr.tree TreeErr.tooLarge)) = _
    rw [hroot]
  · rw [← hstacc, hcons]
    rfl

/-- The trailing consume, coupled: from cursor `c` the builder walks its
remaining cache into chunk roots and finishes on the cursor reaching
`MaxUint64` or on `EOF`; the verifier consumes exactly those roots, ends with
the proof exhausted and no error, and its tree has the root of the full leaf
sequence. -/
theorem final_couple {D : Type} (hN : D → D → D) (hs : List D)
    (hbig : hs.length < 2 ^ 63) :
    ∀ (fuel c : Nat) (acc : List D) (t : Tree D),
      c ≤ hs.length → hs.length - c < fuel →
      t.stack = accStack hN (hs.take c) → t.proofTree = false →
      ∃ (entries : List D) (t' : Tree D) (cf : Nat) (errB : Option MErr),
        consumeUntilB (cachedOps hN) fuel (hs.drop c) acc c U64MAX =
          (acc ++ entries, [], cf, errB) ∧
        (errB = none ∨ errB = some .eof) ∧
        consumeUntilV hN fuel t entries c U64MAX = (t', [], cf, none) ∧
        stackRoot hN t'.stack = stackRoot hN (accStack hN hs) := by
  intro fuel
  induction fuel with
  | zero => intro c acc t hc hfuel _ _; omega
  | succ fuel ih =>
    intro c acc t hc hfuel hst hpt
    have hU63 : (2 : Nat) ^ 63 < U64MAX := by norm_num [U64MAX]
    have hcU : c ≠ U64MAX := by omega
    have hUlt : U64MAX < 2 ^ 64 := by norm_num [U64MAX]
    have hclt : c < U64MAX := by omega
    obtain ⟨k, hsz, hdvd, hbound⟩ := nextSubtreeSize_spec hclt hUlt
    have hk1 : (1 : Nat) ≤ 2 ^ k := Nat.one_le_two_pow
    have hsz1 : 1 ≤ nextSubtreeSize c U64MAX := by rw [hsz]; exact hk1
    by_cases hce : c = hs.length
    · -- the cache is already exhausted: the next request is EOF
      have hdropnil : hs.drop c = [] := by
        rw [hce]
        exact List.drop_length hs
      refine ⟨[], t, c, some .eof, ?_, Or.inr rfl, ?_, ?_⟩
      · rw [hdropnil, List.append_nil]
        exact consumeUntilB_step_err (cachedOps hN) fuel c U64MAX [] acc .eof hcU rfl
      · exact consumeUntilV_exhausted hN fuel c U64MAX t hcU
      · rw [hst, hce, List.take_length]
    · have hclen : c < hs.length := by omega
      -- the verifier's push of the chunk root is accepted
      by_cases hfull : c + nextSubtreeSize c U64MAX ≤ hs.length
      · -- a full chunk of 2^k leaves
        have hchunklen : ((hs.drop c).take (nextSubtreeSize c U64MAX)).length = 2 ^ k := by
          rw [List.length_take, List.length_drop, hsz]
          rw [hsz] at hfull
          omega
        obtain ⟨r0, hacc0⟩ := accStack_pow2_single hN hchunklen
        have hsplitdrop : hs.drop c =
            (hs.drop c).take (nextSubtreeSize c U64MAX) ++
              hs.drop (c + nextSubtreeSize c U64MAX) := by
          conv_lhs => rw [← List.take_append_drop (nextSubtreeSize c U64MAX) (hs.drop c)]
          rw [List.drop_drop]
        obtain ⟨r, hnext, hroot⟩ :=
          cachedNext_full hN ((hs.drop c).take (nextSubtreeSize c U64MAX))
            (hs.drop (c + nextSubtreeSize c U64MAX)) (nextSubtreeSize c U64MAX)
            hsz1 (by rw [hchunklen, hsz])
        have hr0 : some r0 = some r := by
          rw [← hroot, hacc0]
          rfl
        rw [Option.some.inj hr0] at hacc0
        have halign := aligned_of_dvd hN hs c k r hdvd (le_of_lt hclen)
        obtain ⟨t1, hpushok, ht1st, -, ht1pt, -⟩ :=
          pushSubTree_ok_of_aligned hN t k r hpt (by rw [hst]; exact halign)
        have ht1acc : t1.stack = accStack hN (hs.take (c + nextSubtreeSize c U64MAX)) := by
          rw [ht1st, hst]
          have hsplittake : hs.take (c + nextSubtreeSize c U64MAX) =
              hs.take c ++ (hs.drop c).take (nextSubtreeSize c U64MAX) :=
            List.take_add hs c (nextSubtreeSize c U64MAX)
          rw [hsplittake, accStack_append]
          exact (chunk_push hN k _ _ r hchunklen hacc0 (accStack_sorted hN _) halign).symm
        obtain ⟨entries', t', cf, errB, hB', herr, hV', hroot'⟩ :=
          ih (c + nextSubtreeSize c U64MAX) (acc ++ [r]) t1 (by omega) (by omega)
            ht1acc ht1pt
        have hnextB : (cachedOps hN).next (hs.drop c) (nextSubtreeSize c U64MAX) =
            .ok (r, hs.drop (c + nextSubtreeSize c U64MAX)) := by
          show cachedNext hN (hs.drop c) _ = _
          rw [hsplitdrop]
          exact hnext
        have hpushok' : Tree.pushSubTree hN t (tz64 (nextSubtreeSize c U64MAX)) r =
            .ok t1 := by
          rw [hsz, tz64_two_pow]
          exact hpushok
        refine ⟨r :: entries', t', cf, errB, ?_, herr, ?_, hroot'⟩
        · rw [consumeUntilB_step (cachedOps hN) fuel c U64MAX (hs.drop c) acc r _
            hcU hnextB, hB', List.append_assoc, List.singleton_append]
        · rw [consumeUntilV_step hN fuel c U64MAX t r entries' t1 hcU hpushok', hV']
      · -- the final, partial chunk: everything left fits strictly inside 2^k
        rw [hsz] at hfull
        have hm : hs.length - c < 2 ^ k := by omega
        have hdropne : hs.drop c ≠ [] := by
          intro h
          have hlen0 := congrArg List.length h
          rw [List.length_drop] at hlen0
          simp at hlen0
          omega
        obtain ⟨r, hnextP, hrootP⟩ :=
          cachedNext_partial hN (hs.drop c) (nextSubtreeSize c U64MAX) hdropne
            (by rw [List.length_drop, hsz]; omega)
        have hnextB : (cachedOps hN).next (hs.drop c) (nextSubtreeSize c U64MAX) =
            .ok (r, []) := hnextP
        have halign := aligned_of_dvd hN hs c k r hdvd (le_of_lt hclen)
        obtain ⟨t1, hpushok, ht1st, -, ht1pt, -⟩ :=
          pushSubTree_ok_of_aligned hN t k r hpt (by rw [hst]; exact halign)
        have hpushok' : Tree.pushSubTree hN t (tz64 (nextSubtreeSize c U64MAX)) r =
            .ok t1 := by
          rw [hsz, tz64_two_pow]
          exact hpushok
        -- all pending entries stand at height ≥ k
        have hall : ∀ e ∈ accStack hN (hs.take c), k ≤ e.height := by
          intro e he
          cases hacc : accStack hN (hs.take c) with
          | nil =>
            rw [hacc] at he
            simp at he
          | cons a rest =>
            rw [hacc] at he
            have hsorted := accStack_sorted hN (hs.take c)
            rw [hacc] at hsorted
            have hge := sorted_all_ge_head hsorted e he
            have hal : k ≤ a.height := by
              rw [hacc] at halign
              exact halign
            omega
        have haccne : accStack hN (hs.drop c) ≠ [] := by
          have hcnt : stCount (accStack hN (hs.drop c)) = hs.length - c := by
            rw [accStack_count, List.length_drop]
          intro h
          rw [h] at hcnt
          have h0 : stCount ([] : List (SubTree D)) = 0 := rfl
          omega
        have hsplit : accStack hN hs =
            accStack hN (hs.drop c) ++ accStack hN (hs.take c) := by
          conv_lhs => rw [← List.take_append_drop c hs]
          rw [accStack_append]
          have hhigh := foldl_push0_append_high hN (hs.drop c) []
            (accStack hN (hs.take c)) k List.Pairwise.nil
            (by
              rw [List.length_drop]
              show 0 + (hs.length - c) < 2 ^ k
              omega)
            hall
          rw [List.nil_append] at hhigh
          rw [hhigh]
          rfl
        have hrootEq : stackRoot hN t1.stack = stackRoot hN (accStack hN hs) := by
          rw [ht1st, hst, stackRoot_joinStackP, hsplit]
          obtain ⟨a, rest, hcons⟩ := List.exists_cons_of_ne_nil haccne
          rw [hcons]
          show some (rootFold hN r (accStack hN (hs.take c))) =
            some (rootFold hN a.sum (rest ++ accStack hN (hs.take c)))
          rw [rootFold_append]
          rw [hcons] at hrootP
          have hra : rootFold hN a.sum rest = r := Option.some.inj hrootP
          rw [hra]
        by_cases hcf : c + nextSubtreeSize c U64MAX = U64MAX
        · refine ⟨[r], t1, c + nextSubtreeSize c U64MAX, none, ?_, Or.inl rfl, ?_, hrootEq⟩
          · rw [consumeUntilB_step (cachedOps hN) fuel c U64MAX (hs.drop c) acc r []
              hcU hnextB, hcf, consumeUntilB_stop]
          · rw [consumeUntilV_step hN fuel c U64MAX t r [] t1 hcU hpushok', hcf,
              consumeUntilV_stop]
        · have hfuel1 : 1 ≤ fuel := by omega
          obtain ⟨fuel', rfl⟩ : ∃ f, fuel = f + 1 := ⟨fuel - 1, by omega⟩
          refine ⟨[r], t1, c + nextSubtreeSize c U64MAX, some .eof, ?_, Or.inr rfl,
            ?_, hrootEq⟩
          · rw [consumeUntilB_step (cachedOps hN) (fuel' + 1) c U64MAX (hs.drop c) acc r
              [] hcU hnextB,
              consumeUntilB_step_err (cachedOps hN) fuel' _ U64MAX [] (acc ++ [r]) .eof
                hcf rfl]
          · rw [consumeUntilV_step hN (fuel' + 1) c U64MAX t r [] t1 hcU hpushok',
              consumeUntilV_exhausted hN fuel' _ U64MAX t1 hcf]

/-- **C1**: for every leaf sequence and every valid (sorted, non-overlapping,
non-empty-range) range set over it, building a proof with
`BuildMultiRangeProof` from a data source over that leaf sequence and then
verifying it with `VerifyMultiRangeProof` against the true Merkle root of the
sequence, supplying the leaf hashes inside the ranges, returns true (and no
error). -/
theorem build_verify_multi_range {D : Type} [DecidableEq D] (hN : D → D → D)
    (hs : List D) (ranges : List LeafRange) (root : D)
    (hvalid : validRangeSet ranges = true)
    (hbounds : ∀ r ∈ ranges, r.stop ≤ hs.length)
    (hbig : hs.length < 2 ^ 63)
    (hroot : stackRoot hN (accStack hN hs) = some root) :
    ∃ proof, buildMultiRangeProof (cachedOps hN) hs ranges = .ok proof ∧
      verifyMultiRangeProof hN (inRangeHashes hs ranges) ranges proof root =
        (true, none) := by
  cases ranges with
  | nil => exact ⟨[], rfl, rfl⟩
  | cons r0 rs0 =>
    have hU63 : (2 : Nat) ^ 63 < U64MAX := by norm_num [U64MAX]
    have hwf := rangesWF_of_valid _ hvalid
    obtain ⟨-, hLle⟩ :=
      @lastStop_le hs.length (r0 :: rs0) 0 hwf hbounds (Nat.zero_le _)
    obtain ⟨entries, tL, hB, hV, hLst, hLpt⟩ :=
      ranges_couple hN hs hbig (r0 :: rs0) 0 [] (Tree.new D) hwf hbounds
        (Nat.zero_le _) rfl rfl
    rw [List.nil_append, List.drop_zero] at hB
    obtain ⟨entries2, tF, cf, errB, hB2, herr, hV2, hrootEq⟩ :=
      final_couple hN hs hbig (U64MAX - lastStop 0 (r0 :: rs0))
        (lastStop 0 (r0 :: rs0)) entries tL hLle (by omega) hLst hLpt
    have hne : (r0 :: rs0).isEmpty = false := rfl
    refine ⟨entries ++ entries2, ?_, ?_⟩
    · rw [buildMultiRangeProof, hne]
      simp only [Bool.false_eq_true, if_false]
      rw [hvalid]
      simp only [Bool.not_true, Bool.false_eq_true, if_false]
      simp only [hB]
      rcases herr with rfl | rfl
      · simp only [hB2]
      · simp only [hB2]
    · rw [verifyMultiRangeProof, hne]
      simp only [Bool.false_eq_true, if_false]
      rw [hvalid]
      simp only [Bool.not_true, Bool.false_eq_true, if_false]
      have hV' := hV entries2 []
      rw [List.append_nil] at hV'
      have hfin : Tree.root hN tF = some root := by
        show stackRoot hN tF.stack = some root
        rw [hrootEq, hroot]
      simp only [hV', hV2, hfin]
      simp

/-- **C1 witness**: the three-leaf sequence `[1, 2, 3]` with the single range
`[1, 2)` and its true root `13`. -/
theorem build_verify_multi_range_witness :
    validRangeSet [⟨1, 2⟩] = true ∧ ([1, 2, 3] : List Nat).length < 2 ^ 63 ∧
    ∃ proof,
      buildMultiRangeProof (cachedOps (fun a b => a + 2 * b + 1)) [1, 2, 3]
        [⟨1, 2⟩] = .ok proof ∧
      verifyMultiRangeProof (fun a b => a + 2 * b + 1)
        (inRangeHashes [1, 2, 3] [⟨1, 2⟩]) [⟨1, 2⟩] proof 13 = (true, none) :=
  ⟨by decide, by decide,
    build_verify_multi_range (fun a b => a + 2 * b + 1) [1, 2, 3] [⟨1, 2⟩] 13
      (by decide) (by decide) (by decide) (by decide)⟩

theorem compressRanges_cons {D σ : Type} (ops : SHOps D σ) (r : LeafRange)
    (rs : List LeafRange) (s : σ) (acc acc' : List D) (s' : σ) (li' : Nat)
    (h1 : consumeUntilB ops (r.stop - r.start) s acc r.start r.stop =
      (acc', s', li', none)) :
    compressRanges ops (r :: rs) s acc = compressRanges ops rs s' acc' := by
  rw [compressRanges, h1]

theorem verifyDiffRanges_cons {D : Type} (hN : D → D → D) (r : LeafRange)
    (rs : List LeafRange) (t : Tree D) (rh proof : List D) (li : Nat)
    (t' : Tree D) (proof' : List D) (li' : Nat) (t'' : Tree D) (rh' : List D)
    (li'' : Nat)
    (h1 : consumeUntilV hN (r.start - li) t proof li r.start = (t', proof', li', none))
    (h2 : consumeUntilV hN (r.stop - li') t' rh li' r.stop = (t'', rh', li'', none)) :
    verifyDiffRanges hN (r :: rs) t rh proof li =
      verifyDiffRanges hN rs t'' rh' proof' li'' := by
  rw [verifyDiffRanges, h1]
  show (match consumeUntilV hN (r.stop - li') t' rh li' r.stop with
        | (_, _, _, some err) => Except.error err
        | (t'', rh', li'', none) => verifyDiffRanges hN rs t'' rh' proof' li'') = _
  rw [h2]

theorem inRangeHashes_cons {D : Type} (hs : List D) (r : LeafRange)
    (rs : List LeafRange) :
    inRangeHashes hs (r :: rs) =
      (hs.drop r.start).take (r.stop - r.start) ++ inRangeHashes hs rs := by
  show (hs.take r.stop).drop r.start ++ inRangeHashes hs rs = _
  rw [List.drop_take]

/-- The diff walk, coupled: over one range list the proof builder emits the gap
chunk roots, the compressor emits the in-range chunk roots, and the diff
verifier consumes exactly those two streams, rebuilding the accumulator stack
of the prefix. -/
theorem diff_couple {D : Type} (hN : D → D → D) (hs : List D)
    (hbig : hs.length < 2 ^ 63) :
    ∀ (ranges : List LeafRange) (c : Nat) (accP accR : List D) (t : Tree D),
      rangesWF c ranges → (∀ r ∈ ranges, r.stop ≤ hs.length) → c ≤ hs.length →
      t.stack = accStack hN (hs.take c) → t.proofTree = false →
      ∃ (pEntries rEntries : List D) (t' : Tree D),
        buildRangesB (cachedOps hN) ranges (hs.drop c) accP c =
          .ok (accP ++ pEntries, hs.drop (lastStop c ranges), lastStop c ranges) ∧
        compressRanges (cachedOps hN) ranges (inRangeHashes hs ranges) accR =
          .ok (accR ++ rEntries, ([] : List D)) ∧
        (∀ (restR restP : List D),
          verifyDiffRanges hN ranges t (rEntries ++ restR) (pEntries ++ restP) c =
            .ok (t', restR, restP, lastStop c ranges)) ∧
        t'.stack = accStack hN (hs.take (lastStop c ranges)) ∧
        t'.proofTree = false := by
  intro ranges
  induction ranges with
  | nil =>
    intro c accP accR t _ _ _ hst hpt
    refine ⟨[], [], t, by simp [buildRangesB, lastStop],
      by simp [compressRanges, inRangeHashes], fun restR restP => ?_, hst, hpt⟩
    show Except.ok (t, [] ++ restR, [] ++ restP, c) = _
    simp [lastStop]
  | cons r rs ih =>
    intro c accP accR t hwf hbounds hc hst hpt
    obtain ⟨hcr, hrlt, hwfrest⟩ := hwf
    have hstop : r.stop ≤ hs.length := hbounds r (by simp)
    -- the gap [c, r.start): proof entries
    obtain ⟨gEntries, tg, hgB, hgV, hgst, hgpt⟩ :=
      gap_couple hN hs hbig (r.start - c) c r.start (hs.drop r.start) accP t
        hcr (by omega) le_rfl hst hpt
    have hdc : (hs.drop c).take (r.start - c) ++ hs.drop r.start = hs.drop c := by
      have hdd : hs.drop r.start = (hs.drop c).drop (r.start - c) := by
        rw [List.drop_drop]
        congr 1
        omega
      rw [hdd, List.take_append_drop]
    rw [hdc] at hgB
    -- the range [r.start, r.stop): compressed range entries
    obtain ⟨cEntries, tr, hcB, hcV, hcst, hcpt⟩ :=
      gap_couple hN hs hbig (r.stop - r.start) r.start r.stop (inRangeHashes hs rs)
        accR tg (by omega) hstop le_rfl hgst hgpt
    obtain ⟨pE, rE, t', hrB, hrC, hrV, hrst, hrpt⟩ :=
      ih r.stop (accP ++ gEntries) (accR ++ cEntries) tr hwfrest
        (fun q hq => hbounds q (List.mem_cons_of_mem r hq)) hstop hcst hcpt
    refine ⟨gEntries ++ pE, cEntries ++ rE, t', ?_, ?_, ?_, hrst, hrpt⟩
    · have hsk := skip_until_ok hN hs hbig (r.stop - r.start) r.start r.stop
        (by omega) hstop le_rfl
      rw [buildRangesB_cons (cachedOps hN) r rs _ _ _ _ _ _ _ _ hgB hsk, hrB,
        List.append_assoc]
      rfl
    · rw [inRangeHashes_cons,
        compressRanges_cons (cachedOps hN) r rs _ accR (accR ++ cEntries)
          (inRangeHashes hs rs) r.stop hcB,
        hrC, List.append_assoc]
    · intro restR restP
      have hpr : (gEntries ++ pE) ++ restP = gEntries ++ (pE ++ restP) :=
        List.append_assoc _ _ _
      have hrr : (cEntries ++ rE) ++ restR = cEntries ++ (rE ++ restR) :=
        List.append_assoc _ _ _
      rw [hpr, hrr,
        verifyDiffRanges_cons hN r rs t _ _ c tg (pE ++ restP) r.start tr
          (rE ++ restR) r.stop (hgV (pE ++ restP)) (hcV (rE ++ restR))]
      exact hrV restR restP

/-- **C3 (amended)**: for NONEMPTY valid range sets the two pipelines agree.
With the leaf hashes inside the ranges as the cached data, building both a
multi-range proof and a diff proof (with the true leaf count) succeeds,
`CompressLeafHashes` succeeds, and for EVERY candidate root the two verifiers
return the same answer: the comparison of the true accumulator root with the
candidate, and no error — so they accept exactly the same (ranges, root)
pairs.  (For the empty range set the claim fails: see the counterexample.) -/
theorem diff_matches_multi {D : Type} [DecidableEq D] (hN : D → D → D)
    (hs : List D) (ranges : List LeafRange)
    (hne : ranges ≠ [])
    (hvalid : validRangeSet ranges = true)
    (hbounds : ∀ r ∈ ranges, r.stop ≤ hs.length)
    (hbig : hs.length < 2 ^ 63) :
    ∃ (proofM proofD rangeHashes : List D),
      buildMultiRangeProof (cachedOps hN) hs ranges = .ok proofM ∧
      buildDiffProof (cachedOps hN) hs ranges hs.length = .ok proofD ∧
      compressLeafHashes (cachedOps hN) ranges (inRangeHashes hs ranges) =
        .ok rangeHashes ∧
      ∀ root : D,
        verifyMultiRangeProof hN (inRangeHashes hs ranges) ranges proofM root =
          (decide (stackRoot hN (accStack hN hs) = some root), none) ∧
        verifyDiffProof hN rangeHashes hs.length ranges proofD root =
          (decide (stackRoot hN (accStack hN hs) = some root), none) := by
  cases ranges with
  | nil => exact absurd rfl hne
  | cons r0 rs0 =>
    have hU63 : (2 : Nat) ^ 63 < U64MAX := by norm_num [U64MAX]
    have hwf := rangesWF_of_valid _ hvalid
    obtain ⟨-, hLle⟩ :=
      @lastStop_le hs.length (r0 :: rs0) 0 hwf hbounds (Nat.zero_le _)
    have hnil : (r0 :: rs0).isEmpty = false := rfl
    -- multi-range pipeline
    obtain ⟨entriesM, tLm, hBm, hVm, hLmst, hLmpt⟩ :=
      ranges_couple hN hs hbig (r0 :: rs0) 0 [] (Tree.new D) hwf hbounds
        (Nat.zero_le _) rfl rfl
    rw [List.nil_append, List.drop_zero] at hBm
    obtain ⟨entries2, tF, cf, errB, hB2, herr, hV2, hrootEq⟩ :=
      final_couple hN hs hbig (U64MAX - lastStop 0 (r0 :: rs0))
        (lastStop 0 (r0 :: rs0)) entriesM tLm hLle (by omega) hLmst hLmpt
    -- diff pipeline
    obtain ⟨pEntries, rEntries, tLd, hBd, hCd, hVd, hLdst, hLdpt⟩ :=
      diff_couple hN hs hbig (r0 :: rs0) 0 [] [] (Tree.new D) hwf hbounds
        (Nat.zero_le _) rfl rfl
    rw [List.nil_append, List.drop_zero] at hBd
    rw [List.nil_append] at hCd
    obtain ⟨tEntries, tF', hBt, hVt, htFst, -⟩ :=
      gap_couple hN hs hbig (hs.length - lastStop 0 (r0 :: rs0))
        (lastStop 0 (r0 :: rs0)) hs.length [] pEntries tLd hLle le_rfl le_rfl
        hLdst hLdpt
    have hstate : (hs.drop (lastStop 0 (r0 :: rs0))).take
        (hs.length - lastStop 0 (r0 :: rs0)) ++ [] =
        hs.drop (lastStop 0 (r0 :: rs0)) := by
      rw [List.append_nil]
      exact List.take_of_length_le (by rw [List.length_drop])
    rw [hstate] at hBt
    rw [List.take_length] at htFst
    refine ⟨entriesM ++ entries2, pEntries ++ tEntries, rEntries, ?_, ?_, ?_,
      fun root => ⟨?_, ?_⟩⟩
    · rw [buildMultiRangeProof, hnil]
      simp only [Bool.false_eq_true, if_false]
      rw [hvalid]
      simp only [Bool.not_true, Bool.false_eq_true, if_false]
      simp only [hBm]
      rcases herr with rfl | rfl
      · simp only [hB2]
      · simp only [hB2]
    · rw [buildDiffProof, hvalid]
      simp only [Bool.not_true, Bool.false_eq_true, if_false]
      simp only [hBd, hBt]
    · rw [compressLeafHashes, hvalid]
      simp only [Bool.not_true, Bool.false_eq_true, if_false]
      simp only [hCd]
    · rw [verifyMultiRangeProof, hnil]
      simp only [Bool.false_eq_true, if_false]
      rw [hvalid]
      simp only [Bool.not_true, Bool.false_eq_true, if_false]
      have hVm' := hVm entries2 []
      rw [List.append_nil] at hVm'
      simp only [hVm', hV2, Tree.root, hrootEq]
    · rw [verifyDiffProof, hvalid]
      simp only [Bool.not_true, Bool.false_eq_true, if_false]
      have hVd' := hVd [] tEntries
      rw [List.append_nil] at hVd'
      have hVt' := hVt []
      rw [List.append_nil] at hVt'
      simp only [hVd', hVt', Tree.root, htFst]

/-- **C3 counterexample**: on the EMPTY range set — valid per `validRangeSet`
and reachable through both pipelines — the two verifiers disagree.  With the
single leaf `5` and the wrong candidate root `999`, `VerifyMultiRangeProof`
returns true unconditionally (empty-set shortcut), while `VerifyDiffProof`
takes no shortcut: `BuildDiffProof` emits the whole tree as the proof `[5]`,
`CompressLeafHashes` emits nothing, and the diff verifier rebuilds the true
root and rejects `999`. -/
theorem diff_vs_multi_empty_range_set :
    validRangeSet ([] : List LeafRange) = true ∧
    buildDiffProof (cachedOps (fun a b => a + 2 * b + 1)) [5] [] 1 = .ok [5] ∧
    compressLeafHashes (cachedOps (fun a b => a + 2 * b + 1)) []
      (inRangeHashes [5] []) = .ok [] ∧
    verifyDiffProof (fun a b => a + 2 * b + 1) [] 1 [] [5] 999 = (false, none) ∧
    verifyMultiRangeProof (fun a b => a + 2 * b + 1) (inRangeHashes [5] []) [] [5]
      999 = (true, none) :=
  ⟨rfl, rfl, rfl, rfl, rfl⟩

/-- **C3 witness**: the amended equivalence at the three-leaf sequence
`[1, 2, 3]` with the single range `[1, 2)`. -/
theorem diff_matches_multi_witness :
    ([⟨1, 2⟩] : List LeafRange) ≠ [] ∧ validRangeSet [⟨1, 2⟩] = true ∧
    ∃ (proofM proofD rangeHashes : List Nat),
      buildMultiRangeProof (cachedOps (fun a b => a + 2 * b + 1)) [1, 2, 3]
        [⟨1, 2⟩] = .ok proofM ∧
      buildDiffProof (cachedOps (fun a b => a + 2 * b + 1)) [1, 2, 3] [⟨1, 2⟩]
        ([1, 2, 3] : List Nat).length = .ok proofD ∧
      compressLeafHashes (cachedOps (fun a b => a + 2 * b + 1)) [⟨1, 2⟩]
        (inRangeHashes [1, 2, 3] [⟨1, 2⟩]) = .ok rangeHashes ∧
      ∀ root : Nat,
        verifyMultiRangeProof (fun a b => a + 2 * b + 1)
          (inRangeHashes [1, 2, 3] [⟨1, 2⟩]) [⟨1, 2⟩] proofM root =
          (decide (stackRoot (fun a b => a + 2 * b + 1)
            (accStack (fun a b => a + 2 * b + 1) [1, 2, 3]) = some root), none) ∧
        verifyDiffProof (fun a b => a + 2 * b + 1) rangeHashes
          ([1, 2, 3] : List Nat).length [⟨1, 2⟩] proofD root =
          (decide (stackRoot (fun a b => a + 2 * b + 1)
            (accStack (fun a b => a + 2 * b + 1) [1, 2, 3]) = some root), none) :=
  ⟨by decide, by decide,
    diff_matches_multi (fun a b => a + 2 * b + 1) [1, 2, 3] [⟨1, 2⟩]
      (by decide) (by decide) (by decide) (by decide)⟩

/-- **C9 (amended)**: `MixedSubtreeHasher` dispatches on `n ≥ leavesPerNode`
alone, NOT on `n` being a multiple of `leavesPerNode`: any request of size at
least `leavesPerNode` is served from the cache, consuming `n / leavesPerNode`
cached node hashes (`NextSubtreeRoot` combines them; `Skip` drops them), and
any smaller request is delegated verbatim to the reader-backed source.  In the
intended regime — both `n` and `leavesPerNode` powers of two, as produced by
`nextSubtreeSize` — the dispatch condition does coincide with the claim's
"multiple of `leavesPerNode`" condition. -/
theorem mixed_dispatch {D σ : Type} (hN : D → D → D) (rops : SHOps D σ)
    (lpn : Nat) (s : MixedState D σ) (n : Nat) :
    (lpn ≤ n →
      (∀ chunk tail, s.cached = chunk ++ tail → chunk.length = n / lpn →
        1 ≤ n / lpn →
        ∃ r, mixedNext hN rops lpn s n =
            .ok (r, (⟨tail, s.reader⟩ : MixedState D σ)) ∧
          stackRoot hN (accStack hN chunk) = some r) ∧
      (n / lpn ≤ s.cached.length →
        mixedSkip rops lpn s n =
          .ok (⟨s.cached.drop (n / lpn), s.reader⟩ : MixedState D σ))) ∧
    (n < lpn →
      mixedNext hN rops lpn s n =
        (match rops.next s.reader n with
         | .error e => .error e
         | .ok (r, rs) => .ok (r, (⟨s.cached, rs⟩ : MixedState D σ))) ∧
      mixedSkip rops lpn s n =
        (match rops.skip s.reader n with
         | .error e => .error e
         | .ok rs => .ok (⟨s.cached, rs⟩ : MixedState D σ))) ∧
    (∀ j k : Nat, lpn = 2 ^ j → n = 2 ^ k → lpn ≤ n → n % lpn = 0) := by
  refine ⟨fun hge => ⟨?_, ?_⟩, fun hlt => ⟨?_, ?_⟩, ?_⟩
  · intro chunk tail hsplit hlen h1
    obtain ⟨r, hcn, hroot⟩ := cachedNext_full hN chunk tail (n / lpn) h1 hlen
    refine ⟨r, ?_, hroot⟩
    rw [mixedNext, if_pos hge]
    show (match cachedNext hN s.cached (n / lpn) with
          | .error e => Except.error e
          | .ok (r, c') => Except.ok (r, (⟨c', s.reader⟩ : MixedState D σ))) = _
    rw [hsplit, hcn]
  · intro hle
    rw [mixedSkip, if_pos hge]
    show (match cachedSkip s.cached (n / lpn) with
          | .error e => Except.error e
          | .ok c' => Except.ok (⟨c', s.reader⟩ : MixedState D σ)) = _
    unfold cachedSkip
    rw [if_neg (by omega)]
  · rw [mixedNext, if_neg (by omega)]
  · rw [mixedSkip, if_neg (by omega)]
  · intro j k hj hk hle
    subst hj hk
    have hjk : j ≤ k := by
      by_contra hc
      have h2 : (2 : Nat) ^ (k + 1) ≤ 2 ^ j := Nat.pow_le_pow_right (by norm_num) (by omega)
      have h3 : (2 : Nat) ^ (k + 1) = 2 ^ k * 2 := pow_succ 2 k
      have h4 : (1 : Nat) ≤ 2 ^ k := Nat.one_le_two_pow
      omega
    exact Nat.mod_eq_zero_of_dvd (pow_dvd_pow 2 hjk)

/-- **C9 counterexample**: with `leavesPerNode = 2` a request of size `n = 3`
is NOT a multiple of `leavesPerNode`, yet both `NextSubtreeRoot` and `Skip`
serve it from the cache (consuming `3 / 2 = 1` cached hash) instead of
delegating it to the reader — the reader state `[1, 2, 3]` is untouched. -/
theorem mixed_not_multiple_served_from_cache :
    ¬((3 : Nat) % 2 = 0) ∧ (2 : Nat) ≤ 3 ∧
    mixedNext (fun a b => a + 2 * b + 1)
      (readerOps (fun d : Nat => d + 100) (fun a b => a + 2 * b + 1)) 2
      ⟨[7], [1, 2, 3]⟩ 3 = .ok (7, ⟨[], [1, 2, 3]⟩) ∧
    mixedSkip (readerOps (fun d : Nat => d + 100) (fun a b => a + 2 * b + 1)) 2
      ⟨[7], [1, 2, 3]⟩ 3 = .ok ⟨[], [1, 2, 3]⟩ :=
  ⟨by decide, by decide, rfl, rfl⟩

/-- **C9 witness**: the cache branch of the dispatch at `leavesPerNode = 2`,
`n = 3`, cache `[7]`. -/
theorem mixed_dispatch_witness :
    (2 : Nat) ≤ 3 ∧ ([7] : List Nat) = [7] ++ [] ∧
    ([7] : List Nat).length = 3 / 2 ∧ (1 : Nat) ≤ 3 / 2 ∧
    ∃ r, mixedNext (fun a b => a + 2 * b + 1)
        (readerOps (fun d : Nat => d + 100) (fun a b => a + 2 * b + 1)) 2
        ⟨[7], [1, 2, 3]⟩ 3 = .ok (r, ⟨[], [1, 2, 3]⟩) ∧
      stackRoot (fun a b => a + 2 * b + 1)
        (accStack (fun a b => a + 2 * b + 1) [7]) = some r :=
  ⟨by decide, by decide, by decide, by decide,
    ((mixed_dispatch (fun a b => a + 2 * b + 1)
        (readerOps (fun d : Nat => d + 100) (fun a b => a + 2 * b + 1)) 2
        ⟨[7], [1, 2, 3]⟩ 3).1 (by decide)).1 [7] [] (by decide) (by decide)
      (by decide)⟩
